import Mathlib

/-!
Verification of the `simple-matrix` library (`src/matrix.rs`, `src/matrix/std_ops.rs`).

The Rust `Matrix<T>` struct is shallowly embedded as a Lean structure with a
`rows`/`cols` pair and a flat row-major `List` of data.  Fallible Rust paths are
made explicit:

* methods returning `Option<T>` are embedded as `Option`-returning functions;
* `panic!`/`assert!`/`unwrap()` paths are embedded as `Option`/`Except Unit`
  failures (`none` / `.error ()` models a panic), so a theorem concluding
  `= some _` / `= .ok _` proves the corresponding Rust execution cannot panic;
* `Vec` indexing (`self.data[i]`, which panics out of range) is embedded as
  `List.get?`; under the structural invariant `WF` every such access made by
  the library is in range, which the lemmas below establish.

Machine integers are idealised as `ℤ` and floating point is modelled by exact
rationals `ℚ` where a claim needs a concrete numeric run.
-/

/-- Square Mathlib matrices over `ℚ`, used for the linear-algebra arguments
about the Gauss-Jordan inversion routine. -/
abbrev MMat (n : ℕ) := Matrix (Fin n) (Fin n) ℚ

/-- `loopN f n s` runs the body `f` on states, with counter values
`0, 1, …, n-1` in increasing order, starting from state `s`.  It embeds the
Rust pattern `for i in 0..n { s = f(i, s) }`. -/
def loopN (f : ℕ → σ → σ) : ℕ → σ → σ
  | 0, s => s
  | n + 1, s => f n (loopN f n s)

/-- Monadic variant of `loopN`, for loop bodies that can panic. -/
def loopNM [Monad m] (f : ℕ → σ → m σ) : ℕ → σ → m σ
  | 0, s => pure s
  | n + 1, s => loopNM f n s >>= f n

/-- Row-major flat indices are injective on in-range coordinates. -/
theorem rowMajor_inj {C r c r' c' : ℕ} (hc : c < C) (hc' : c' < C)
    (h : c + r * C = c' + r' * C) : r = r' ∧ c = c' := by
  have hC : 0 < C := by omega
  have hr : r = r' := by
    have e1 : (c + r * C) / C = r := by
      rw [Nat.add_mul_div_right _ _ hC, Nat.div_eq_of_lt hc, Nat.zero_add]
    have e2 : (c + r * C) / C = r' := by
      rw [h, Nat.add_mul_div_right _ _ hC, Nat.div_eq_of_lt hc', Nat.zero_add]
    exact e1.symm.trans e2
  refine ⟨hr, ?_⟩
  subst hr
  exact Nat.add_right_cancel h

namespace SimpleMatrix

/-- Embedding of the Rust struct `Matrix<T>` (matrix.rs:12-16):
`rows`, `cols` and a flat backing vector `data` in row-major order. -/
structure Matrix (α : Type) where
  rows : ℕ
  cols : ℕ
  data : List α
deriving DecidableEq, Repr

variable {α : Type}

/-- The structural invariant stated in the spec (`data.length == rows * cols`,
`rows` and `cols` strictly positive). -/
def Matrix.WF (m : Matrix α) : Prop :=
  0 < m.rows ∧ 0 < m.cols ∧ m.data.length = m.rows * m.cols

instance (m : Matrix α) : Decidable m.WF := by unfold Matrix.WF; infer_instance

/-- `Matrix::get` (matrix.rs:158-167): bounds check, then a clone of
`self.data[col + row * self.cols]`.  The inner `Vec` index is embedded as
`List.get?`; in range (which `WF` guarantees) it yields `some`. -/
def Matrix.get (m : Matrix α) (row col : ℕ) : Option α :=
  if row < m.rows ∧ col < m.cols then m.data.get? (col + row * m.cols) else none

/-- `Matrix::get_ref` (matrix.rs:183-189): same bounds contract as `get`,
returning a shared reference; the referenced value is embedded directly. -/
def Matrix.get_ref (m : Matrix α) (row col : ℕ) : Option α :=
  if row < m.rows ∧ col < m.cols then m.data.get? (col + row * m.cols) else none

/-- `Matrix::get_mut` (matrix.rs:206-212): same bounds contract, returning a
mutable reference; the embedded value is the cell currently referenced. -/
def Matrix.get_mut (m : Matrix α) (row col : ℕ) : Option α :=
  if row < m.rows ∧ col < m.cols then m.data.get? (col + row * m.cols) else none

/-- `Matrix::set` (matrix.rs:228-235): writes through `get_mut` when it
succeeds.  Returns the Rust `bool` together with the updated matrix (the Rust
method mutates `self` in place). -/
def Matrix.set (m : Matrix α) (row col : ℕ) (value : α) : Bool × Matrix α :=
  match m.get_mut row col with
  | some _ => (true, ⟨m.rows, m.cols, m.data.set (col + row * m.cols) value⟩)
  | none => (false, m)

/-- `Matrix::from_iter` (matrix.rs:102-114) on a finite source:
`assert!(rows > 0 && cols > 0)`, take `rows * cols` items, then
`assert_eq!(data.len(), rows * cols)`.  `none` models an assertion panic. -/
def Matrix.from_iter (rows cols : ℕ) (data : List α) : Option (Matrix α) :=
  if 0 < rows ∧ 0 < cols then
    let d := data.take (rows * cols)
    if d.length = rows * cols then some ⟨rows, cols, d⟩ else none
  else none

/-- `Matrix::from_iter` applied to an unbounded source sequence (an infinite
iterator such as `0..`), modelled as a function `ℕ → α`:
`source.take(rows * cols).collect()` is `(List.range (rows*cols)).map f`,
whose length always equals `rows * cols`, so only the positivity assertion
remains. -/
def Matrix.from_fun (rows cols : ℕ) (f : ℕ → α) : Option (Matrix α) :=
  if 0 < rows ∧ 0 < cols then some ⟨rows, cols, (List.range (rows * cols)).map f⟩
  else none

/-- `Matrix::new` (matrix.rs:30-35): flattens the nested array
`values : [[T; R]; C]` and delegates to `from_iter(R, C, …)`.  The nested
array is embedded as a list of `C` inner lists of length `R` (hypotheses of
the theorems about `new`). -/
def Matrix.new (R C : ℕ) (values : List (List α)) : Option (Matrix α) :=
  Matrix.from_iter R C values.flatten

/-- `Matrix::zero` (matrix.rs:49-54): `from_iter(rows, cols, (0..).map(|_| 0))`. -/
def Matrix.zero [Zero α] (rows cols : ℕ) : Option (Matrix α) :=
  Matrix.from_fun rows cols fun _ => 0

/-- `Matrix::identity` (matrix.rs:72-81): start from `zero(size, size)` and
set each diagonal cell to one (the returned `bool` of `set` is discarded). -/
def Matrix.identity [Zero α] [One α] (size : ℕ) : Option (Matrix α) :=
  (Matrix.zero size size).map fun m0 =>
    loopN (fun i m => (m.set i i 1).2) size m0

/-- `Matrix::get_row` (matrix.rs:250-256): bounds-check the row, then read the
`cols` cells `get_ref(row, 0) … get_ref(row, cols-1)` (each `unwrap`ped —
embedded via `Option.mapM`, so an out-of-range backing read is a panic). -/
def Matrix.getRow (m : Matrix α) (row : ℕ) : Option (List α) :=
  if row < m.rows then (List.range m.cols).mapM (fun col => m.get_ref row col)
  else none

/-- `Matrix::get_col` (matrix.rs:271-277): column counterpart of `get_row`. -/
def Matrix.getCol (m : Matrix α) (col : ℕ) : Option (List α) :=
  if col < m.cols then (List.range m.rows).mapM (fun row => m.get_ref row col)
  else none

/-- `Vec::swap` on the backing store: panics (here `none`) when either index
is out of range, otherwise exchanges the two elements. -/
def listSwap (l : List α) (a b : ℕ) : Option (List α) :=
  match l.get? a, l.get? b with
  | some x, some y => some ((l.set a y).set b x)
  | _, _ => none

/-- `Matrix::swap_rows` (matrix.rs:280-285): for each column, swap the two
backing-store cells of the two rows. -/
def Matrix.swap_rows (m : Matrix α) (row1 row2 : ℕ) : Option (Matrix α) :=
  ((List.range m.cols).foldlM
    (fun d col => listSwap d (col + row1 * m.cols) (col + row2 * m.cols))
    m.data).map fun d => ⟨m.rows, m.cols, d⟩

/-- `Matrix::swap_cols` (matrix.rs:288-293): for each row, swap the two
backing-store cells of the two columns. -/
def Matrix.swap_cols (m : Matrix α) (col1 col2 : ℕ) : Option (Matrix α) :=
  ((List.range m.rows).foldlM
    (fun d row => listSwap d (col1 + row * m.cols) (col2 + row * m.cols))
    m.data).map fun d => ⟨m.rows, m.cols, d⟩

/-- `Matrix::transpose` (matrix.rs:310-327): a `cols × rows` matrix whose data
is built by pushing each source column in turn (`get_col(col).unwrap()`
iterating `get_ref(row, col).unwrap()`). -/
def Matrix.transpose (m : Matrix α) : Option (Matrix α) :=
  ((List.range m.cols).mapM (fun col => m.getCol col)).map fun columns =>
    ⟨m.cols, m.rows, columns.flatten⟩

/-- `Matrix::apply_mut` (matrix.rs:456-458): map a function over every cell of
the backing store in place. -/
def Matrix.apply_mut (m : Matrix α) (f : α → α) : Matrix α :=
  ⟨m.rows, m.cols, m.data.map f⟩

/-- `impl Add for Matrix<T>` (std_ops.rs:9-28 via `impl_op!`): two shape
assertions (panic modelled as `none`), then a fresh matrix collected from the
zipped element iterators. -/
def Matrix.add [Add α] (m₁ m₂ : Matrix α) : Option (Matrix α) :=
  if m₁.rows = m₂.rows ∧ m₁.cols = m₂.cols then
    some ⟨m₁.rows, m₁.cols, List.zipWith (· + ·) m₁.data m₂.data⟩
  else none

/-- `impl Add for &Matrix<T>` (std_ops.rs:30-50): the by-reference operator
form; identical observable behaviour to the consuming form. -/
def Matrix.addRef [Add α] (m₁ m₂ : Matrix α) : Option (Matrix α) :=
  if m₁.rows = m₂.rows ∧ m₁.cols = m₂.cols then
    some ⟨m₁.rows, m₁.cols, List.zipWith (· + ·) m₁.data m₂.data⟩
  else none

/-- `impl Sub for Matrix<T>` (std_ops.rs:83 via `impl_op!`). -/
def Matrix.sub [Sub α] (m₁ m₂ : Matrix α) : Option (Matrix α) :=
  if m₁.rows = m₂.rows ∧ m₁.cols = m₂.cols then
    some ⟨m₁.rows, m₁.cols, List.zipWith (· - ·) m₁.data m₂.data⟩
  else none

/-- `impl Sub for &Matrix<T>` (std_ops.rs:30-50): by-reference subtraction. -/
def Matrix.subRef [Sub α] (m₁ m₂ : Matrix α) : Option (Matrix α) :=
  if m₁.rows = m₂.rows ∧ m₁.cols = m₂.cols then
    some ⟨m₁.rows, m₁.cols, List.zipWith (· - ·) m₁.data m₂.data⟩
  else none

/-- `impl AddAssign for Matrix<T>` (std_ops.rs:54-78 via `impl_op_assign!`):
shape assertions, then `self.data.iter_mut().zip(rhs).for_each(|(a,b)| *a += b)`.
Cells of `self` beyond the zipped prefix are left untouched, which the
`++ drop` suffix records (it is empty whenever both matrices are `WF`). -/
def Matrix.add_assign [Add α] (m₁ m₂ : Matrix α) : Option (Matrix α) :=
  if m₁.rows = m₂.rows ∧ m₁.cols = m₂.cols then
    some ⟨m₁.rows, m₁.cols,
      List.zipWith (· + ·) m₁.data m₂.data ++ m₁.data.drop m₂.data.length⟩
  else none

/-- `impl SubAssign for Matrix<T>` (std_ops.rs:85). -/
def Matrix.sub_assign [Sub α] (m₁ m₂ : Matrix α) : Option (Matrix α) :=
  if m₁.rows = m₂.rows ∧ m₁.cols = m₂.cols then
    some ⟨m₁.rows, m₁.cols,
      List.zipWith (· - ·) m₁.data m₂.data ++ m₁.data.drop m₂.data.length⟩
  else none

/-- `impl Neg for Matrix<T>` (std_ops.rs:89-99): negate every cell. -/
def Matrix.neg [Neg α] (m : Matrix α) : Matrix α :=
  ⟨m.rows, m.cols, m.data.map fun a => -a⟩

/-- The dot-product loop inside `Mul` (std_ops.rs:123-129): `iter.next().unwrap()`
(a panic — `none` — on an empty zip), then a left fold accumulating
`acc + a * b` over the remaining pairs, in iteration order. -/
def dotList [Mul α] [Add α] : List (α × α) → Option α
  | [] => none
  | (a, b) :: rest => some (rest.foldl (fun acc p => acc + p.1 * p.2) (a * b))

/-- `impl Mul for Matrix<T>` (std_ops.rs:103-139): assert `lhs.cols == rhs.rows`,
then for each `(row, col)` push the dot product of `lhs.get_row(row).unwrap()`
and `rhs.get_col(col).unwrap()`. -/
def Matrix.mul [Mul α] [Add α] (m₁ m₂ : Matrix α) : Option (Matrix α) :=
  if m₁.cols = m₂.rows then
    (((List.range m₁.rows).mapM (fun row => (List.range m₂.cols).mapM (fun col => do
        let r ← m₁.getRow row
        let c ← m₂.getCol col
        dotList (r.zip c))) : Option (List (List α)))).map
      fun cells => ⟨m₁.rows, m₂.cols, cells.flatten⟩
  else none

/-- `impl Mul for &Matrix<T>` (std_ops.rs:141-177): the by-reference multiply;
identical observable behaviour to the consuming form. -/
def Matrix.mulRef [Mul α] [Add α] (m₁ m₂ : Matrix α) : Option (Matrix α) :=
  if m₁.cols = m₂.rows then
    (((List.range m₁.rows).mapM (fun row => (List.range m₂.cols).mapM (fun col => do
        let r ← m₁.getRow row
        let c ← m₂.getCol col
        dotList (r.zip c))) : Option (List (List α)))).map
      fun cells => ⟨m₁.rows, m₂.cols, cells.flatten⟩
  else none

/-! ### The inversion engine (matrix.rs:352-419)

`Option::unwrap` on a `None` is a panic; inside `inverse` panics are modelled
by `Except Unit`, `.error ()` standing for a panic, so that the error-handling
claims about `inverse` can distinguish "returns `None`" (`.ok none`) from
"dies fatally" (`.error ()`). -/

deriving instance DecidableEq for Except

/-- `Option::unwrap`, with the panic made explicit. -/
def unwrap : Option β → Except Unit β
  | some a => .ok a
  | none => .error ()

/-- The pivot-search `while` loop of `inverse` (matrix.rs:375-385).  `i` scans
rows downward from `r` at column `lead`; an exhausted column resets `i` to `r`
and advances `lead`; when `lead` reaches `cols` the loop breaks with the pair
`(r, cols)`.  The Rust loop terminates because `(cols - lead) * rows +
(rows - i)` strictly decreases at every iteration; `fuel` is an upper bound on
that measure supplied by the caller, so the `fuel = 0` branch is never taken
when the caller provides enough (`findPivot_spec` below). -/
def findPivot [Zero α] [DecidableEq α] (mat : Matrix α) (r : ℕ) :
    ℕ → ℕ → ℕ → Except Unit (ℕ × ℕ)
  | _, _, 0 => .error ()
  | lead, i, fuel + 1 => do
    let v ← unwrap (mat.get_ref i lead)
    if v = 0 then
      if i + 1 = mat.rows then
        if lead + 1 = mat.cols then pure (r, lead + 1)
        else findPivot mat r (lead + 1) r fuel
      else findPivot mat r lead (i + 1) fuel
    else pure (i, lead)

/-- The row-normalisation loop of `inverse` (matrix.rs:390-396): every cell of
row `r` is divided (in place) by the captured pivot value `d`. -/
def normalizeRow [Div α] (mat : Matrix α) (r : ℕ) (d : α) : Except Unit (Matrix α) :=
  loopNM (fun j m => do
      let v ← unwrap (m.get_mut r j)
      pure (m.set r j (v / d)).2) mat.cols mat

/-- The inner elimination loop of `inverse` (matrix.rs:400-405) for one row
`k ≠ r`: capture `mul = get(k, lead)`, then subtract `get(r, j) * mul` from
cell `(k, j)` for each column `j`. -/
def elimRow [Mul α] [Sub α] (mat : Matrix α) (r lead k : ℕ) : Except Unit (Matrix α) := do
  let mul ← unwrap (mat.get k lead)
  loopNM (fun j m => do
      let s ← unwrap (m.get r j)
      let v ← unwrap (m.get_mut k j)
      pure (m.set k j (v - s * mul)).2) mat.cols mat

/-- The outer elimination loop of `inverse` (matrix.rs:398-407): eliminate
column `lead` from every row `k ≠ r`. -/
def elimLoop [Mul α] [Sub α] (mat : Matrix α) (r lead : ℕ) : Except Unit (Matrix α) :=
  loopNM (fun k m => if k = r then pure m else elimRow m r lead k) mat.rows mat

/-- One iteration of the main `for r` loop of `inverse` (matrix.rs:375-409):
pivot search, `swap_rows(i, r)`, `get_ref(r, lead).unwrap()` (this unwrap is
the panic the search-break path would hit), conditional normalisation, and
elimination; `lead` advances by one. -/
def gjIter [Zero α] [Mul α] [Sub α] [Div α] [DecidableEq α]
    (mat : Matrix α) (lead r : ℕ) : Except Unit (Matrix α × ℕ) := do
  let p ← findPivot mat r lead r ((mat.cols - lead) * mat.rows + mat.rows + 1)
  let mat ← unwrap (mat.swap_rows p.1 r)
  let d ← unwrap (mat.get_ref r p.2)
  let mat ← if d = 0 then pure mat else normalizeRow mat r d
  let mat ← elimLoop mat r p.2
  pure (mat, p.2 + 1)

/-- The main `for r in 0..rows` loop of `inverse` (matrix.rs:371-410), with the
early `break` when `cols <= lead`; `k` counts the iterations still to run
(`r + k = rows` at every call). -/
def gjLoop [Zero α] [Mul α] [Sub α] [Div α] [DecidableEq α] :
    Matrix α → ℕ → ℕ → ℕ → Except Unit (Matrix α × ℕ)
  | mat, lead, _, 0 => pure (mat, lead)
  | mat, lead, r, k + 1 =>
    if mat.cols ≤ lead then pure (mat, lead)
    else do
      let s ← gjIter mat lead r
      gjLoop s.1 s.2 (r + 1) k

/-- `Matrix::inverse` (matrix.rs:352-419): `None` for non-square input;
otherwise build the `len × 2·len` augmented matrix, run Gauss-Jordan
elimination, and extract the right half. -/
def Matrix.inverse [Zero α] [One α] [Mul α] [Sub α] [Div α] [DecidableEq α]
    (m : Matrix α) : Except Unit (Option (Matrix α)) :=
  if m.rows ≠ m.cols then pure none
  else do
    let len := m.rows
    let mat0 ← unwrap (Matrix.zero len (len * 2))
    let mat ← loopNM (fun i mat => do
        let mat ← loopNM (fun j mat => do
            let v ← unwrap (m.get i j)
            pure (mat.set i j v).2) len mat
        pure (mat.set i (i + len) 1).2) len mat0
    let s ← gjLoop mat 0 0 mat.rows
    let out0 ← unwrap (Matrix.zero len len)
    let out ← loopNM (fun i out => loopNM (fun j out => do
        let v ← unwrap (s.1.get i (j + len))
        pure (out.set i j v).2) len out) len out0
    pure (some out)

/-! ### Proof-side definitions -/

/-- The value stored at logical cell `(r, c)` (with a junk default out of
range); proof-side shorthand, not part of the embedding of the source. -/
def Matrix.cell [Inhabited α] (m : Matrix α) (r c : ℕ) : α :=
  (m.data.get? (c + r * m.cols)).getD default

/-- Row-major table of the values of a cell function; proof-side shorthand. -/
def buildData (R C : ℕ) (f : ℕ → ℕ → α) : List α :=
  (List.range R).flatMap fun r => (List.range C).map (f r)

/-- The square Mathlib matrix underlying an `n × n` slice of `m` read from
column offset `off` (used with `off = 0` for the left half of the augmented
matrix and `off = n` for its right half). -/
def Matrix.slice (m : Matrix ℚ) (n off : ℕ) : MMat n :=
  fun i j => m.cell i (off + j)

/-- The permutation matrix of the transposition swapping `a` and `b`:
left multiplication swaps rows `a` and `b`. -/
def permMat (n : ℕ) (a b : Fin n) : MMat n :=
  fun x t => if t = Equiv.swap a b x then 1 else 0

/-- The diagonal matrix that scales row `r` by `c`: left multiplication
multiplies row `r` by `c` and leaves other rows unchanged. -/
def scaleMat (n : ℕ) (r : Fin n) (c : ℚ) : MMat n :=
  fun x t => if x = t then (if x = r then c else 1) else 0

/-- The elementary matrix of a simultaneous elimination step: left
multiplication turns row `x ≠ r` into `row x - μ x • row r` and fixes row `r`. -/
def elimMat (n : ℕ) (r : Fin n) (μ : Fin n → ℚ) : MMat n :=
  fun x t => if x = t then 1 else if t = r then -μ x else 0

/-- The index permutation performed by swapping rows (or columns) `a` and
`b`; proof-side shorthand. -/
def swapIdx (a b x : ℕ) : ℕ := if x = a then b else if x = b then a else x

/-- The cell-level effect of one Gauss-Jordan iteration of `inverse` with
pivot row `i0` and pivot column `l0`: swap rows `i0` and `r`, divide row `r`
by the pivot value, then subtract `(row x's entry at l0) * row r` from every
other row `x`; proof-side shorthand. -/
def gjStepCell (mat : Matrix ℚ) (r i0 l0 x c : ℕ) : ℚ :=
  let piv := mat.cell i0 l0
  let N : ℕ → ℕ → ℚ := fun x c =>
    if x = r then mat.cell (swapIdx i0 r x) c / piv else mat.cell (swapIdx i0 r x) c
  if x = r then N r c else N x c - N r c * N x l0

/-! ### Basic toolkit lemmas -/

theorem idx_lt {R C row col : ℕ} (hr : row < R) (hc : col < C) :
    col + row * C < R * C := by
  calc col + row * C < C + row * C := by omega
  _ = (row + 1) * C := by ring
  _ ≤ R * C := Nat.mul_le_mul_right C hr

theorem Matrix.data_get?_eq [Inhabited α] {m : Matrix α} (hW : m.WF)
    {row col : ℕ} (hr : row < m.rows) (hc : col < m.cols) :
    m.data.get? (col + row * m.cols) = some (m.cell row col) := by
  obtain ⟨-, -, hlen⟩ := hW
  have hlt : col + row * m.cols < m.data.length := by rw [hlen]; exact idx_lt hr hc
  rw [Matrix.cell, List.get?_eq_get hlt]
  rfl

theorem Matrix.get_in [Inhabited α] {m : Matrix α} (hW : m.WF)
    {row col : ℕ} (hr : row < m.rows) (hc : col < m.cols) :
    m.get row col = some (m.cell row col) := by
  rw [Matrix.get, if_pos ⟨hr, hc⟩, Matrix.data_get?_eq hW hr hc]

theorem Matrix.get_ref_in [Inhabited α] {m : Matrix α} (hW : m.WF)
    {row col : ℕ} (hr : row < m.rows) (hc : col < m.cols) :
    m.get_ref row col = some (m.cell row col) :=
  Matrix.get_in hW hr hc

theorem Matrix.get_mut_in [Inhabited α] {m : Matrix α} (hW : m.WF)
    {row col : ℕ} (hr : row < m.rows) (hc : col < m.cols) :
    m.get_mut row col = some (m.cell row col) :=
  Matrix.get_in hW hr hc

theorem Matrix.get_oob {m : Matrix α} {row col : ℕ}
    (h : ¬(row < m.rows ∧ col < m.cols)) : m.get row col = none := by
  rw [Matrix.get, if_neg h]

/-- In-range `set` succeeds and rewrites exactly one backing cell. -/
theorem Matrix.set_in {m : Matrix α} (hW : m.WF)
    {row col : ℕ} (hr : row < m.rows) (hc : col < m.cols) (v : α) :
    m.set row col v =
      (true, ⟨m.rows, m.cols, m.data.set (col + row * m.cols) v⟩) := by
  have : Inhabited α := ⟨v⟩
  rw [Matrix.set, Matrix.get_mut_in hW hr hc]

theorem Matrix.set_oob {m : Matrix α} {row col : ℕ}
    (h : ¬(row < m.rows ∧ col < m.cols)) (v : α) :
    m.set row col v = (false, m) := by
  rw [Matrix.set, Matrix.get_mut, if_neg h]

/-- Shape and well-formedness of an in-range `set` result, and its cells. -/
theorem Matrix.set_cells [Inhabited α] {m : Matrix α} (hW : m.WF)
    (row col : ℕ) (hr : row < m.rows) (hc : col < m.cols) (v : α) :
    (m.set row col v).2.rows = m.rows ∧ (m.set row col v).2.cols = m.cols ∧
      (m.set row col v).2.WF ∧
      ∀ r c, r < m.rows → c < m.cols →
        (m.set row col v).2.cell r c =
          if r = row ∧ c = col then v else m.cell r c := by
  obtain ⟨h1, h2, hlen⟩ := hW
  rw [Matrix.set_in ⟨h1, h2, hlen⟩ hr hc]
  refine ⟨rfl, rfl, ⟨h1, h2, by simpa using hlen⟩, ?_⟩
  intro r c hr' hc'
  have hlt : col + row * m.cols < m.data.length := by rw [hlen]; exact idx_lt hr hc
  simp only [Matrix.cell, List.get?_eq_getElem?, List.getElem?_set]
  by_cases he : c + r * m.cols = col + row * m.cols
  · obtain ⟨h3, h4⟩ := rowMajor_inj hc' hc he
    simp [he, h3, h4, hlt]
  · have : ¬(r = row ∧ c = col) := by
      rintro ⟨rfl, rfl⟩; exact he rfl
    simp [Ne.symm he, this]

theorem length_buildData (R C : ℕ) (f : ℕ → ℕ → α) :
    (buildData R C f).length = R * C := by
  unfold buildData
  induction R with
  | zero => simp
  | succ R ih =>
    rw [List.range_succ, List.flatMap_append]
    simp only [List.length_append, List.flatMap_cons, List.flatMap_nil, List.append_nil,
      List.length_map, List.length_range]
    rw [ih]
    ring

theorem buildData_get? {R C row col : ℕ} (hr : row < R) (hc : col < C)
    (f : ℕ → ℕ → α) : (buildData R C f).get? (col + row * C) = some (f row col) := by
  induction R with
  | zero => omega
  | succ R ih =>
    rw [buildData, List.range_succ, List.flatMap_append]
    simp only [List.flatMap_cons, List.flatMap_nil, List.append_nil]
    rw [List.get?_eq_getElem?, List.getElem?_append]
    have hlen : (buildData R C f).length = R * C := length_buildData R C f
    rw [buildData] at hlen
    by_cases h : row < R
    · rw [if_pos (by rw [hlen]; exact idx_lt h hc), ← List.get?_eq_getElem?]
      exact ih h
    · have hrow : row = R := by omega
      subst hrow
      rw [if_neg (by rw [hlen]; omega), hlen]
      have : col + row * C - row * C = col := by omega
      rw [this, List.getElem?_map, List.getElem?_range hc]
      rfl

/-- Any well-formed matrix is the row-major table of its own cells. -/
theorem Matrix.data_eq_buildData [Inhabited α] {m : Matrix α} (hW : m.WF) :
    m.data = buildData m.rows m.cols m.cell := by
  obtain ⟨-, h2, hlen⟩ := hW
  apply List.ext_get?
  intro n
  by_cases hn : n < m.rows * m.cols
  · have hn' : n < m.cols * m.rows := by rw [Nat.mul_comm]; exact hn
    have hdiv : n / m.cols < m.rows := Nat.div_lt_of_lt_mul hn'
    have hmod : n % m.cols < m.cols := Nat.mod_lt _ h2
    have hdecomp : n % m.cols + n / m.cols * m.cols = n := Nat.mod_add_div' n m.cols
    have hrowpos : 0 < m.rows := by
      by_contra h0
      have h0' : m.rows = 0 := by omega
      rw [h0', Nat.zero_mul] at hn
      omega
    calc m.data.get? n = m.data.get? (n % m.cols + n / m.cols * m.cols) := by rw [hdecomp]
    _ = some (m.cell (n / m.cols) (n % m.cols)) :=
        Matrix.data_get?_eq ⟨hrowpos, h2, hlen⟩ hdiv hmod
    _ = (buildData m.rows m.cols m.cell).get? (n % m.cols + n / m.cols * m.cols) :=
        (buildData_get? hdiv hmod _).symm
    _ = (buildData m.rows m.cols m.cell).get? n := by rw [hdecomp]
  · have h₁ : m.data.length ≤ n := by rw [hlen]; omega
    have h₂ : (buildData m.rows m.cols m.cell).length ≤ n := by
      rw [length_buildData]; omega
    rw [List.get?_eq_getElem?, List.get?_eq_getElem?, List.getElem?_eq_none h₁,
      List.getElem?_eq_none h₂]

theorem buildData_congr {R C : ℕ} {f g : ℕ → ℕ → α}
    (h : ∀ r c, r < R → c < C → f r c = g r c) :
    buildData R C f = buildData R C g := by
  induction R with
  | zero => rfl
  | succ R ih =>
    rw [buildData, buildData, List.range_succ, List.flatMap_append, List.flatMap_append]
    congr 1
    · exact ih fun r c h1 h2 => h r c (by omega) h2
    · simp only [List.flatMap_cons, List.flatMap_nil]
      congr 1
      exact List.map_congr_left fun c hc =>
        h R c (by omega) (List.mem_range.mp hc)

/-- Two well-formed matrices of the same shape with equal in-range cells are
equal. -/
theorem Matrix.ext_cells [Inhabited α] {m₁ m₂ : Matrix α} (hW₁ : m₁.WF) (hW₂ : m₂.WF)
    (hr : m₁.rows = m₂.rows) (hc : m₁.cols = m₂.cols)
    (h : ∀ r c, r < m₁.rows → c < m₁.cols → m₁.cell r c = m₂.cell r c) :
    m₁ = m₂ := by
  obtain ⟨r₁, c₁, d₁⟩ := m₁
  obtain ⟨r₂, c₂, d₂⟩ := m₂
  simp only at hr hc
  subst hr hc
  simp only [Matrix.mk.injEq, true_and]
  have e₁ := Matrix.data_eq_buildData hW₁
  have e₂ := Matrix.data_eq_buildData hW₂
  dsimp only at e₁ e₂
  rw [e₁, e₂]
  exact buildData_congr h

theorem mapM_eq_some_map {β : Type} {l : List α} {f : α → Option β} {g : α → β}
    (h : ∀ a ∈ l, f a = some (g a)) : l.mapM f = some (l.map g) := by
  induction l with
  | nil => rfl
  | cons a l ih =>
    rw [List.mapM_cons, h a (by simp), List.map_cons, ih]
    · rfl
    · intro a ha; exact h a (by simp [ha])

theorem from_iter_enough {rows cols : ℕ} {src : List α}
    (h1 : 0 < rows) (h2 : 0 < cols) (h : rows * cols ≤ src.length) :
    Matrix.from_iter rows cols src = some ⟨rows, cols, src.take (rows * cols)⟩ := by
  rw [Matrix.from_iter, if_pos ⟨h1, h2⟩]
  simp [List.length_take, Nat.min_eq_left h]

theorem from_iter_short {rows cols : ℕ} {src : List α}
    (h : src.length < rows * cols) : Matrix.from_iter rows cols src = none := by
  rw [Matrix.from_iter]
  by_cases hp : 0 < rows ∧ 0 < cols
  · rw [if_pos hp]
    simp only [List.length_take]
    rw [if_neg (by omega)]
  · rw [if_neg hp]

theorem from_fun_eq {rows cols : ℕ} (h1 : 0 < rows) (h2 : 0 < cols) (f : ℕ → α) :
    Matrix.from_fun rows cols f = some ⟨rows, cols, (List.range (rows * cols)).map f⟩ := by
  rw [Matrix.from_fun, if_pos ⟨h1, h2⟩]

theorem from_fun_WF {rows cols : ℕ} {f : ℕ → α} {m : Matrix α}
    (h : Matrix.from_fun rows cols f = some m) :
    m.WF ∧ m.rows = rows ∧ m.cols = cols := by
  rw [Matrix.from_fun] at h
  by_cases hp : 0 < rows ∧ 0 < cols
  · rw [if_pos hp] at h
    obtain rfl := (Option.some_inj.mp h).symm
    exact ⟨⟨hp.1, hp.2, by simp⟩, rfl, rfl⟩
  · rw [if_neg hp] at h
    exact absurd h (by simp)

theorem from_fun_cell [Inhabited α] {rows cols : ℕ} {f : ℕ → α} {m : Matrix α}
    (h : Matrix.from_fun rows cols f = some m)
    {r c : ℕ} (hr : r < rows) (hc : c < cols) : m.cell r c = f (c + r * cols) := by
  rw [Matrix.from_fun, if_pos ⟨by omega, by omega⟩] at h
  obtain rfl := (Option.some_inj.mp h).symm
  simp only [Matrix.cell]
  rw [List.get?_eq_getElem?, List.getElem?_map, List.getElem?_range (idx_lt hr hc)]
  rfl

/-! ### Claim C3 -/

/-- C3: for every well-formed matrix and in-range indices, `get(r, c)` reads
exactly the backing-store element at flat offset `c + r * cols` (row-major
layout); concretely, `Matrix::from_iter(3, 6, 0..)` yields a 3×6 matrix with
`get(0,0) == 0`, `get(0,1) == 1`, `get(1,0) == 6` and `get(2,5) == 17`. -/
theorem C3_get_row_major :
    (∀ (α : Type) (m : Matrix α) (r c : ℕ), m.WF → r < m.rows → c < m.cols →
      m.get r c = m.data.get? (c + r * m.cols) ∧ (m.get r c).isSome) ∧
    (∃ m : Matrix ℕ, Matrix.from_fun 3 6 (fun n => n) = some m ∧
      m.get 0 0 = some 0 ∧ m.get 0 1 = some 1 ∧ m.get 1 0 = some 6 ∧
      m.get 2 5 = some 17) := by
  constructor
  · intro α m r c hW hr hc
    refine ⟨by rw [Matrix.get, if_pos ⟨hr, hc⟩], ?_⟩
    have hlt : c + r * m.cols < m.data.length := by rw [hW.2.2]; exact idx_lt hr hc
    rw [Matrix.get, if_pos ⟨hr, hc⟩, List.get?_eq_getElem?, List.getElem?_eq_getElem hlt]
    rfl
  · exact ⟨⟨3, 6, (List.range 18).map fun n => n⟩, by decide, by decide, by decide,
      by decide, by decide⟩

/-- Witness for the universally-quantified part of C3 at a concrete matrix. -/
theorem C3_get_row_major_witness :
    (Matrix.mk 2 3 [10, 11, 12, 13, 14, 15] : Matrix ℕ).get 1 2 =
      [10, 11, 12, 13, 14, 15].get? (2 + 1 * 3) :=
  (C3_get_row_major.1 ℕ ⟨2, 3, [10, 11, 12, 13, 14, 15]⟩ 1 2 (by decide) (by decide)
    (by decide)).1

/-! ### Claim C6 -/

/-- C6: checked accessors.  In range (on a well-formed matrix) `get`,
`get_ref` and `get_mut` agree and are present, and `set` returns `true` and
writes the cell; out of range all three return `none` and `set` returns
`false` leaving the matrix untouched.  No fatal termination occurs on any of
these paths. -/
theorem C6_checked_accessors :
    ∀ (α : Type) (m : Matrix α) (r c : ℕ),
      (∀ v : α, m.WF → r < m.rows → c < m.cols →
        (∃ w, m.get r c = some w ∧ m.get_ref r c = some w ∧ m.get_mut r c = some w) ∧
        (m.set r c v).1 = true ∧ (m.set r c v).2.get r c = some v) ∧
      (¬(r < m.rows ∧ c < m.cols) → ∀ v : α,
        m.get r c = none ∧ m.get_ref r c = none ∧ m.get_mut r c = none ∧
        m.set r c v = (false, m)) := by
  intro α m r c
  constructor
  · intro v hW hr hc
    have : Inhabited α := ⟨v⟩
    refine ⟨⟨m.cell r c, m.get_in hW hr hc, m.get_ref_in hW hr hc,
      m.get_mut_in hW hr hc⟩, ?_, ?_⟩
    · rw [Matrix.set_in hW hr hc]
    · rw [Matrix.set_in hW hr hc]
      have hlt : c + r * m.cols < m.data.length := by
        rw [hW.2.2]; exact idx_lt hr hc
      rw [Matrix.get, if_pos ⟨hr, hc⟩]
      simp [List.get?_eq_getElem?, List.getElem?_set, hlt]
  · intro h v
    exact ⟨Matrix.get_oob h, by rw [Matrix.get_ref, if_neg h],
      by rw [Matrix.get_mut, if_neg h], Matrix.set_oob h v⟩

/-- Witness for C6 at a concrete matrix, one in-range and one out-of-range
call. -/
theorem C6_checked_accessors_witness :
    ((∃ w, (Matrix.mk 1 2 [5, 7] : Matrix ℕ).get 0 1 = some w ∧
        (Matrix.mk 1 2 [5, 7] : Matrix ℕ).get_ref 0 1 = some w ∧
        (Matrix.mk 1 2 [5, 7] : Matrix ℕ).get_mut 0 1 = some w) ∧
      ((Matrix.mk 1 2 [5, 7] : Matrix ℕ).set 0 1 9).1 = true ∧
      ((Matrix.mk 1 2 [5, 7] : Matrix ℕ).set 0 1 9).2.get 0 1 = some 9) ∧
    (Matrix.mk 1 2 [5, 7] : Matrix ℕ).get 4 0 = none :=
  ⟨(C6_checked_accessors ℕ ⟨1, 2, [5, 7]⟩ 0 1).1 9 (by decide) (by decide) (by decide),
    ((C6_checked_accessors ℕ ⟨1, 2, [5, 7]⟩ 4 0).2 (by decide) 0).1⟩

/-! ### Claim C8 -/

/-- C8: `from_iter` consumes exactly `rows * cols` items.  A source of at
least `rows * cols` items (in particular any unbounded source) succeeds, the
excess being ignored and cells filled row by row; an undersized source, or
`rows == 0` or `cols == 0`, is a fatal construction error (`none`). -/
theorem C8_from_iter_consumption :
    ∀ (α : Type) (rows cols : ℕ),
      (∀ src : List α, 0 < rows → 0 < cols → rows * cols ≤ src.length →
        Matrix.from_iter rows cols src = some ⟨rows, cols, src.take (rows * cols)⟩ ∧
        ∀ r c, r < rows → c < cols →
          (Matrix.mk rows cols (src.take (rows * cols)) : Matrix α).get r c =
            src.get? (c + r * cols)) ∧
      (∀ src : List α, src.length < rows * cols →
        Matrix.from_iter rows cols src = none) ∧
      (rows = 0 ∨ cols = 0 → ∀ src : List α,
        Matrix.from_iter rows cols src = none) ∧
      (∀ f : ℕ → α, 0 < rows → 0 < cols →
        Matrix.from_fun rows cols f =
          some ⟨rows, cols, (List.range (rows * cols)).map f⟩) := by
  intro α rows cols
  refine ⟨?_, fun src h => from_iter_short h, ?_, fun f h1 h2 => from_fun_eq h1 h2 f⟩
  · intro src h1 h2 h
    refine ⟨from_iter_enough h1 h2 h, ?_⟩
    intro r c hr hc
    rw [Matrix.get, if_pos ⟨hr, hc⟩]
    simp only [List.get?_eq_getElem?, List.getElem?_take]
    rw [if_pos (idx_lt hr hc)]
  · rintro (rfl | rfl) src
    · rw [Matrix.from_iter, if_neg (by omega)]
    · rw [Matrix.from_iter, if_neg (by omega)]

/-- Witness for C8: a 2×2 construction from a longer source, an undersized
failure, a zero-dimension failure, and an unbounded-source success. -/
theorem C8_from_iter_consumption_witness :
    (Matrix.from_iter 2 2 [1, 2, 3, 4, 5, 6] =
        some ⟨2, 2, ([1, 2, 3, 4, 5, 6].take 4 : List ℕ)⟩) ∧
    (Matrix.from_iter 2 2 [1, 2, 3] = (none : Option (Matrix ℕ))) ∧
    (Matrix.from_iter 0 2 [1, 2, 3] = (none : Option (Matrix ℕ))) ∧
    (Matrix.from_fun 2 2 (fun n => n) =
      some ⟨2, 2, (List.range 4).map fun n => n⟩) :=
  ⟨((C8_from_iter_consumption ℕ 2 2).1 [1, 2, 3, 4, 5, 6] (by decide) (by decide)
      (by decide)).1,
    (C8_from_iter_consumption ℕ 2 2).2.1 [1, 2, 3] (by decide),
    (C8_from_iter_consumption ℕ 0 2).2.2.1 (Or.inl rfl) [1, 2, 3],
    (C8_from_iter_consumption ℕ 2 2).2.2.2 (fun n => n) (by decide) (by decide)⟩

/-! ### Claim C9 -/

/-- C9: every shape-mismatched element-wise operation (consuming,
by-reference, and assigning forms of add and sub) and every
inner-dimension-mismatched multiply terminates fatally (`none`), never
truncating or padding. -/
theorem C9_shape_mismatch_fatal :
    ∀ (α : Type) [Add α] [Sub α] [Mul α] (m₁ m₂ : Matrix α),
      (m₁.rows ≠ m₂.rows ∨ m₁.cols ≠ m₂.cols →
        m₁.add m₂ = none ∧ m₁.addRef m₂ = none ∧ m₁.sub m₂ = none ∧
        m₁.subRef m₂ = none ∧ m₁.add_assign m₂ = none ∧ m₁.sub_assign m₂ = none) ∧
      (m₁.cols ≠ m₂.rows → m₁.mul m₂ = none ∧ m₁.mulRef m₂ = none) := by
  intro α _ _ _ m₁ m₂
  constructor
  · intro h
    have h' : ¬(m₁.rows = m₂.rows ∧ m₁.cols = m₂.cols) := by tauto
    exact ⟨by rw [Matrix.add, if_neg h'], by rw [Matrix.addRef, if_neg h'],
      by rw [Matrix.sub, if_neg h'], by rw [Matrix.subRef, if_neg h'],
      by rw [Matrix.add_assign, if_neg h'], by rw [Matrix.sub_assign, if_neg h']⟩
  · intro h
    exact ⟨by rw [Matrix.mul, if_neg h], by rw [Matrix.mulRef, if_neg h]⟩

/-- Witness for C9 at concrete mismatched shapes. -/
theorem C9_shape_mismatch_fatal_witness :
    ((Matrix.mk 1 2 [1, 2] : Matrix ℤ).add ⟨2, 1, [1, 2]⟩ = none) ∧
    ((Matrix.mk 1 2 [1, 2] : Matrix ℤ).mul ⟨1, 2, [1, 2]⟩ = none) :=
  ⟨((C9_shape_mismatch_fatal ℤ ⟨1, 2, [1, 2]⟩ ⟨2, 1, [1, 2]⟩).1
      (Or.inl (by decide))).1,
    ((C9_shape_mismatch_fatal ℤ ⟨1, 2, [1, 2]⟩ ⟨1, 2, [1, 2]⟩).2 (by decide)).1⟩

/-! ### Claim C4 -/

theorem length_flatten_uniform {ls : List (List α)} {R : ℕ}
    (h : ∀ l ∈ ls, l.length = R) : ls.flatten.length = ls.length * R := by
  induction ls with
  | nil => simp
  | cons l ls ih =>
    rw [List.flatten_cons, List.length_append, h l (by simp),
      ih fun l hm => h l (by simp [hm])]
    simp [Nat.succ_mul]
    ring

theorem flatten_get?_uniform {ls : List (List α)} {R : ℕ}
    (h : ∀ l ∈ ls, l.length = R) {i j : ℕ} (hj : j < R) :
    ls.flatten.get? (j + i * R) = (ls.get? i).bind fun l => l.get? j := by
  induction ls generalizing i with
  | nil => cases i <;> rfl
  | cons l ls ih =>
    have hl : l.length = R := h l (by simp)
    rw [List.flatten_cons, List.get?_eq_getElem?, List.getElem?_append]
    cases i with
    | zero =>
      rw [if_pos (by omega)]
      simp [List.get?_eq_getElem?]
    | succ i =>
      have e : j + (i + 1) * R = (j + i * R) + R := by ring
      rw [if_neg (by omega), hl]
      have e2 : j + (i + 1) * R - R = j + i * R := by omega
      rw [e2, ← List.get?_eq_getElem?, ih fun l hm => h l (by simp [hm])]
      rfl

/-- C4: `Matrix::new` on a nested `[[T; R]; C]` array (a list of `C` inner
lists of length `R`) builds an `R × C` matrix whose row-major data is the
flattened outer array, so a non-square literal is read transposed relative to
its visual layout (concretely `new([[1,2],[3,4],[5,6]])` is `2 × 3` with
`get(0,1) == 2`, `get(0,2) == 3`, `get(1,0) == 4`), while for a square
literal `get(i, j)` is the literal element `[i][j]`. -/
theorem C4_new_shape :
    (∀ (α : Type) (R C : ℕ) (values : List (List α)),
      0 < R → 0 < C → values.length = C → (∀ l ∈ values, l.length = R) →
      ∃ m, Matrix.new R C values = some m ∧ m.rows = R ∧ m.cols = C ∧
        m.data = values.flatten ∧
        (R = C → ∀ i j, i < R → j < C →
          m.get i j = (values.get? i).bind fun l => l.get? j)) ∧
    (∃ m : Matrix ℤ, Matrix.new 2 3 [[1, 2], [3, 4], [5, 6]] = some m ∧
      m.rows = 2 ∧ m.cols = 3 ∧ m.get 0 1 = some 2 ∧ m.get 0 2 = some 3 ∧
      m.get 1 0 = some 4) := by
  constructor
  · intro α R C values hR hC hlen hunif
    have hflen : values.flatten.length = C * R := by
      rw [length_flatten_uniform hunif, hlen]
    have hsome : Matrix.new R C values = some ⟨R, C, values.flatten⟩ := by
      rw [Matrix.new, Matrix.from_iter, if_pos ⟨hR, hC⟩]
      have htake : values.flatten.take (R * C) = values.flatten :=
        List.take_of_length_le (by rw [hflen, Nat.mul_comm])
      simp only [htake]
      rw [if_pos (by rw [hflen]; ring)]
    refine ⟨⟨R, C, values.flatten⟩, hsome, rfl, rfl, rfl, ?_⟩
    rintro rfl i j hi hj
    rw [Matrix.get, if_pos ⟨hi, hj⟩]
    exact flatten_get?_uniform hunif hj
  · exact ⟨⟨2, 3, [1, 2, 3, 4, 5, 6]⟩, by decide, rfl, rfl, by decide, by decide,
      by decide⟩

/-- Witness for the universally-quantified part of C4 at a square literal. -/
theorem C4_new_shape_witness :
    ∃ m : Matrix ℤ, Matrix.new 2 2 [[1, 2], [3, 4]] = some m ∧ m.rows = 2 ∧
      m.cols = 2 ∧ m.data = [[1, 2], [3, 4]].flatten ∧
      (2 = 2 → ∀ i j, i < 2 → j < 2 →
        m.get i j = ([[(1 : ℤ), 2], [3, 4]].get? i).bind fun l => l.get? j) := by
  obtain ⟨m, h⟩ := C4_new_shape.1 ℤ 2 2 [[1, 2], [3, 4]] (by decide) (by decide)
    (by decide) (by decide)
  exact ⟨m, h.1, h.2.1, h.2.2.1, h.2.2.2.1, fun _ => h.2.2.2.2 rfl⟩

/-! ### Claim C5 -/

theorem getCol_eq [Inhabited α] {m : Matrix α} (hW : m.WF) {c : ℕ} (hc : c < m.cols) :
    m.getCol c = some ((List.range m.rows).map fun r => m.cell r c) := by
  rw [Matrix.getCol, if_pos hc]
  exact mapM_eq_some_map fun r hr =>
    m.get_ref_in hW (List.mem_range.mp hr) hc

theorem getRow_eq [Inhabited α] {m : Matrix α} (hW : m.WF) {r : ℕ} (hr : r < m.rows) :
    m.getRow r = some ((List.range m.cols).map fun c => m.cell r c) := by
  rw [Matrix.getRow, if_pos hr]
  exact mapM_eq_some_map fun c hc =>
    m.get_ref_in hW hr (List.mem_range.mp hc)

theorem transpose_eq [Inhabited α] {m : Matrix α} (hW : m.WF) :
    m.transpose =
      some ⟨m.cols, m.rows, buildData m.cols m.rows fun c r => m.cell r c⟩ := by
  rw [Matrix.transpose,
    mapM_eq_some_map (g := fun c => (List.range m.rows).map fun r => m.cell r c)
      fun c hc => getCol_eq hW (List.mem_range.mp hc)]
  rfl

theorem transpose_WF [Inhabited α] {m : Matrix α} (hW : m.WF) {mt : Matrix α}
    (ht : m.transpose = some mt) :
    mt.WF ∧ mt.rows = m.cols ∧ mt.cols = m.rows ∧
      ∀ i j, i < m.cols → j < m.rows → mt.cell i j = m.cell j i := by
  rw [transpose_eq hW] at ht
  obtain rfl := (Option.some_inj.mp ht).symm
  refine ⟨⟨hW.2.1, hW.1, by rw [length_buildData]⟩, rfl, rfl, ?_⟩
  intro i j hi hj
  simp only [Matrix.cell]
  rw [buildData_get? hi hj]
  rfl

/-- C5: `transpose` of an `R × C` well-formed matrix is a `C × R` matrix with
`result.get(i, j) == source.get(j, i)` for all in-range indices, and
transposing twice returns the original matrix exactly (same shape, every
cell). -/
theorem C5_transpose :
    ∀ (α : Type) [Inhabited α] (m : Matrix α), m.WF →
      ∃ mt, m.transpose = some mt ∧ mt.rows = m.cols ∧ mt.cols = m.rows ∧
        (∀ i j, i < m.cols → j < m.rows → mt.get i j = m.get j i) ∧
        mt.transpose = some m := by
  intro α _ m hW
  obtain ⟨mt, ht⟩ : ∃ mt, m.transpose = some mt := ⟨_, transpose_eq hW⟩
  obtain ⟨hWt, hrows, hcols, hcells⟩ := transpose_WF hW ht
  refine ⟨mt, ht, hrows, hcols, ?_, ?_⟩
  · intro i j hi hj
    rw [Matrix.get, if_pos ⟨by omega, by omega⟩, Matrix.get, if_pos ⟨hj, hi⟩,
      Matrix.data_get?_eq hWt (by omega) (by omega),
      Matrix.data_get?_eq hW hj hi, hcells i j hi hj]
  · obtain ⟨mtt, htt⟩ : ∃ mtt, mt.transpose = some mtt := ⟨_, transpose_eq hWt⟩
    obtain ⟨hWtt, hrows2, hcols2, hcells2⟩ := transpose_WF hWt htt
    rw [htt]
    congr 1
    apply Matrix.ext_cells hWtt hW (by omega) (by omega)
    intro r c hr hc
    rw [hcells2 r c (by omega) (by omega), hcells c r (by omega) (by omega)]

/-- Witness for C5 at a concrete 2×3 matrix. -/
theorem C5_transpose_witness :
    ∃ mt, (Matrix.mk 2 3 [1, 2, 3, 4, 5, 6] : Matrix ℤ).transpose = some mt ∧
      mt.rows = 3 ∧ mt.cols = 2 ∧
      (∀ i j, i < 3 → j < 2 →
        mt.get i j = (Matrix.mk 2 3 [1, 2, 3, 4, 5, 6] : Matrix ℤ).get j i) ∧
      mt.transpose = some ⟨2, 3, [1, 2, 3, 4, 5, 6]⟩ :=
  C5_transpose ℤ ⟨2, 3, [1, 2, 3, 4, 5, 6]⟩ (by decide)

/-! ### Dot products, identity and multiplication (for C7, reused by C1) -/

theorem foldl_add_mul {β : Type} [CommRing β] (ps : List (β × β)) (a : β) :
    ps.foldl (fun acc p => acc + p.1 * p.2) a = a + (ps.map fun p => p.1 * p.2).sum := by
  induction ps generalizing a with
  | nil => simp
  | cons p ps ih => simp [ih, add_assoc]

theorem dotList_ne_nil_eq {β : Type} [CommRing β] {l : List (β × β)} (h : l ≠ []) :
    dotList l = some ((l.map fun p => p.1 * p.2).sum) := by
  match l, h with
  | (a, b) :: rest, _ =>
    rw [dotList, foldl_add_mul, List.map_cons, List.sum_cons]

theorem zip_map_mul {β : Type} [Mul β] (l₁ l₂ : List β) :
    (l₁.zip l₂).map (fun p => p.1 * p.2) = List.zipWith (· * ·) l₁ l₂ := by
  rw [List.zip]
  induction l₁ generalizing l₂ with
  | nil => simp
  | cons a l ih =>
    cases l₂ with
    | nil => simp
    | cons b l₂ => simp [List.zipWith_cons_cons, ih]

theorem sum_zipWith_mul {β : Type} [Inhabited β] [CommRing β] :
    ∀ (n : ℕ) (l₁ l₂ : List β), l₁.length = n → l₂.length = n →
      (List.zipWith (· * ·) l₁ l₂).sum =
        ∑ k ∈ Finset.range n, l₁.getD k default * l₂.getD k default := by
  intro n
  induction n with
  | zero =>
    intro l₁ l₂ h₁ h₂
    rw [List.eq_nil_of_length_eq_zero h₁, List.eq_nil_of_length_eq_zero h₂]
    simp
  | succ n ih =>
    intro l₁ l₂ h₁ h₂
    match l₁, l₂ with
    | a :: l₁, b :: l₂ =>
      rw [List.zipWith_cons_cons, List.sum_cons, Finset.sum_range_succ']
      simp only [List.getD_cons_succ, List.getD_cons_zero]
      rw [ih l₁ l₂ (by simpa using h₁) (by simpa using h₂)]
      ring

theorem dotList_zip_eq_sum {β : Type} [Inhabited β] [CommRing β] {l₁ l₂ : List β} {n : ℕ}
    (h₁ : l₁.length = n) (h₂ : l₂.length = n) (hn : 0 < n) :
    dotList (l₁.zip l₂) =
      some (∑ k ∈ Finset.range n, l₁.getD k default * l₂.getD k default) := by
  have hne : l₁.zip l₂ ≠ [] := by
    have : (l₁.zip l₂).length = n := by rw [List.length_zip, h₁, h₂, Nat.min_self]
    intro he
    rw [he] at this
    simp at this
    omega
  rw [dotList_ne_nil_eq hne, zip_map_mul, sum_zipWith_mul n l₁ l₂ h₁ h₂]

theorem getD_map_range {β : Type} [Inhabited β] {n k : ℕ} (hk : k < n) (f : ℕ → β) :
    ((List.range n).map f).getD k default = f k := by
  simp [List.getD, List.get?_eq_getElem?, List.getElem?_map, List.getElem?_range hk]

theorem sum_mul_delta {β : Type} [CommRing β] {n c : ℕ} (hc : c < n) (f : ℕ → β) :
    (∑ k ∈ Finset.range n, f k * if k = c then 1 else 0) = f c := by
  rw [Finset.sum_congr rfl fun k _ => by rw [mul_ite, mul_one, mul_zero],
    Finset.sum_ite_eq' (Finset.range n) c f, if_pos (Finset.mem_range.mpr hc)]

theorem sum_delta_mul {β : Type} [CommRing β] {n c : ℕ} (hc : c < n) (f : ℕ → β) :
    (∑ k ∈ Finset.range n, (if c = k then 1 else 0) * f k) = f c := by
  rw [Finset.sum_congr rfl fun k _ => by rw [ite_mul, one_mul, zero_mul],
    Finset.sum_ite_eq (Finset.range n) c f, if_pos (Finset.mem_range.mpr hc)]

theorem cell_mk_buildData [Inhabited α] {R C : ℕ} (g : ℕ → ℕ → α) {r c : ℕ}
    (hr : r < R) (hc : c < C) :
    (Matrix.mk R C (buildData R C g)).cell r c = g r c := by
  simp only [Matrix.cell]
  rw [buildData_get? hr hc]
  rfl

theorem zero_eq [Zero α] [Inhabited α] {rows cols : ℕ} (h1 : 0 < rows) (h2 : 0 < cols) :
    ∃ z : Matrix α, Matrix.zero rows cols = some z ∧ z.WF ∧ z.rows = rows ∧
      z.cols = cols ∧ ∀ r c, r < rows → c < cols → z.cell r c = (0 : α) := by
  refine ⟨⟨rows, cols, (List.range (rows * cols)).map fun _ => 0⟩,
    from_fun_eq h1 h2 _, ⟨h1, h2, by simp⟩, rfl, rfl, ?_⟩
  intro r c hr hc
  exact from_fun_cell (from_fun_eq h1 h2 _) hr hc

theorem identity_loop [Zero α] [One α] [Inhabited α] {size : ℕ} {z : Matrix α}
    (hz : z.WF) (hr : z.rows = size) (hc : z.cols = size) :
    ∀ k, k ≤ size →
      (loopN (fun i m => (m.set i i 1).2) k z).WF ∧
      (loopN (fun i m => (m.set i i 1).2) k z).rows = size ∧
      (loopN (fun i m => (m.set i i 1).2) k z).cols = size ∧
      ∀ i j, i < size → j < size →
        (loopN (fun i m => (m.set i i 1).2) k z).cell i j =
          if i = j ∧ i < k then 1 else z.cell i j := by
  intro k
  induction k with
  | zero =>
    intro _
    exact ⟨hz, hr, hc, fun i j _ _ => by simp [loopN]⟩
  | succ k ih =>
    intro hk
    obtain ⟨hW', hr', hc', hcell'⟩ := ih (by omega)
    rw [loopN]
    obtain ⟨e1, e2, e3, e4⟩ :=
      Matrix.set_cells hW' k k (by omega) (by omega) (1 : α)
    refine ⟨e3, by rw [e1, hr'], by rw [e2, hc'], ?_⟩
    intro i j hi hj
    rw [e4 i j (by omega) (by omega)]
    by_cases hij : i = j
    · subst hij
      by_cases hik : i = k
      · subst hik
        simp [hcell']
      · rw [if_neg (by omega), hcell' i i hi hi]
        by_cases hlt : i < k
        · rw [if_pos ⟨rfl, hlt⟩, if_pos ⟨rfl, by omega⟩]
        · rw [if_neg (by omega), if_neg (by omega)]
    · rw [if_neg (by omega), hcell' i j hi hj, if_neg (by omega),
        if_neg (by omega)]

theorem identity_eq [Zero α] [One α] [Inhabited α] {size : ℕ} (h : 0 < size) :
    ∃ I : Matrix α, Matrix.identity size = some I ∧ I.WF ∧ I.rows = size ∧
      I.cols = size ∧ ∀ i j, i < size → j < size →
        I.cell i j = if i = j then (1 : α) else 0 := by
  obtain ⟨z, hz, hzW, hzr, hzc, hzcell⟩ := zero_eq (α := α) h h
  refine ⟨loopN (fun i m => (m.set i i 1).2) size z, by rw [Matrix.identity, hz]; rfl, ?_⟩
  obtain ⟨hW, hr, hc, hcell⟩ := identity_loop hzW hzr hzc size (le_refl _)
  refine ⟨hW, hr, hc, ?_⟩
  intro i j hi hj
  rw [hcell i j hi hj]
  by_cases e : i = j
  · rw [if_pos ⟨e, hi⟩, if_pos e]
  · rw [if_neg (by tauto), if_neg e, hzcell i j hi hj]

/-- Successful multiplication, with every result cell identified with the
mathematical dot product of the corresponding row and column. -/
theorem mul_cells {β : Type} [Inhabited β] [CommRing β] {m₁ m₂ : Matrix β}
    (hW₁ : m₁.WF) (hW₂ : m₂.WF) (h : m₁.cols = m₂.rows) :
    m₁.mul m₂ = some ⟨m₁.rows, m₂.cols,
      buildData m₁.rows m₂.cols fun r c =>
        ∑ k ∈ Finset.range m₁.cols, m₁.cell r k * m₂.cell k c⟩ := by
  have hdot : ∀ r ∈ List.range m₁.rows,
      (fun row => (List.range m₂.cols).mapM (fun col => do
        let rl ← m₁.getRow row
        let cl ← m₂.getCol col
        dotList (rl.zip cl))) r =
      some ((List.range m₂.cols).map fun c =>
        ∑ k ∈ Finset.range m₁.cols, m₁.cell r k * m₂.cell k c) := by
    intro r hrm
    have hr : r < m₁.rows := List.mem_range.mp hrm
    apply mapM_eq_some_map
    intro c hcm
    have hc : c < m₂.cols := List.mem_range.mp hcm
    rw [getRow_eq hW₁ hr, getCol_eq hW₂ hc]
    show dotList _ = _
    rw [dotList_zip_eq_sum (n := m₁.cols) (by simp) (by simp [h]) hW₁.2.1]
    congr 1
    apply Finset.sum_congr rfl
    intro k hk
    have hk' : k < m₁.cols := Finset.mem_range.mp hk
    rw [getD_map_range hk', getD_map_range (by omega : k < m₂.rows)]
  rw [Matrix.mul, if_pos h, mapM_eq_some_map hdot]
  rfl

/-! ### Claim C7 -/

/-- C7: over the (exact) integers, multiplying any well-formed matrix by the
identity of its column count on the right, or by the identity of its row
count on the left, returns exactly the original matrix (shape and every
cell). -/
theorem C7_identity_neutral :
    ∀ m : Matrix ℤ, m.WF →
      (∃ I, Matrix.identity m.cols = some I ∧ m.mul I = some m) ∧
      (∃ I, Matrix.identity m.rows = some I ∧ I.mul m = some m) := by
  intro m hW
  constructor
  · obtain ⟨I, hI, hIW, hIr, hIc, hIcell⟩ := identity_eq (α := ℤ) hW.2.1
    refine ⟨I, hI, ?_⟩
    rw [mul_cells hW hIW (by omega)]
    congr 1
    refine Matrix.ext_cells ?_ hW rfl ?_ ?_
    · exact ⟨hW.1, by show 0 < I.cols; rw [hIc]; exact hW.2.1,
        by show (buildData m.rows I.cols _).length = m.rows * I.cols
           rw [length_buildData]⟩
    · show I.cols = m.cols
      exact hIc
    intro r c hr hc
    have hc0 : c < I.cols := hc
    have hc' : c < m.cols := by omega
    rw [cell_mk_buildData _ hr hc0]
    calc (∑ k ∈ Finset.range m.cols, m.cell r k * I.cell k c)
        = ∑ k ∈ Finset.range m.cols, m.cell r k * if k = c then 1 else 0 := by
          apply Finset.sum_congr rfl
          intro k hk
          rw [hIcell k c (by simpa using Finset.mem_range.mp hk) (by omega)]
    _ = m.cell r c := sum_mul_delta hc' _
  · obtain ⟨I, hI, hIW, hIr, hIc, hIcell⟩ := identity_eq (α := ℤ) hW.1
    refine ⟨I, hI, ?_⟩
    rw [mul_cells hIW hW (by omega)]
    congr 1
    refine Matrix.ext_cells ?_ hW ?_ rfl ?_
    · exact ⟨by show 0 < I.rows; rw [hIr]; exact hW.1, hW.2.1,
        by show (buildData I.rows m.cols _).length = I.rows * m.cols
           rw [length_buildData]⟩
    · show I.rows = m.rows
      exact hIr
    intro r c hr hc
    have hr0 : r < I.rows := hr
    have hr' : r < m.rows := by omega
    have hc' : c < m.cols := hc
    rw [cell_mk_buildData _ hr0 hc']
    calc (∑ k ∈ Finset.range I.cols, I.cell r k * m.cell k c)
        = ∑ k ∈ Finset.range m.rows, (if r = k then 1 else 0) * m.cell k c := by
          rw [show I.cols = m.rows by omega]
          apply Finset.sum_congr rfl
          intro k hk
          rw [hIcell r k (by omega) (by simpa using Finset.mem_range.mp hk)]
    _ = m.cell r c := sum_delta_mul hr' _

/-- Witness for C7 at a concrete 2×3 integer matrix. -/
theorem C7_identity_neutral_witness :
    (∃ I, Matrix.identity 3 = some I ∧
      (Matrix.mk 2 3 [1, 2, 3, 4, 5, 6] : Matrix ℤ).mul I = some ⟨2, 3, [1, 2, 3, 4, 5, 6]⟩) ∧
    (∃ I, Matrix.identity 2 = some I ∧
      I.mul (Matrix.mk 2 3 [1, 2, 3, 4, 5, 6] : Matrix ℤ) = some ⟨2, 3, [1, 2, 3, 4, 5, 6]⟩) :=
  C7_identity_neutral ⟨2, 3, [1, 2, 3, 4, 5, 6]⟩ (by decide)

/-! ### The pivot search (inverse, matrix.rs:375-385) -/

theorem unwrap_some_bind {β γ : Type} (v : β) (f : β → Except Unit γ) :
    (unwrap (some v) >>= f) = f v := rfl

/-- Behaviour of the pivot-search loop when the region it scans — the rest of
column `lead` from row `i` down, plus every later column from row `r` down —
contains a non-zero entry: the loop stops, without panicking, at the first
such entry in scan order, every fully skipped column being zero on all of
rows `r..rows`.  `fuel` only needs to exceed the loop measure
`(cols - lead) * rows + (rows - i)`. -/
theorem findPivot_spec {mat : Matrix ℚ} (hW : mat.WF) {r : ℕ} (hr : r < mat.rows) :
    ∀ fuel lead i, lead < mat.cols → r ≤ i → i < mat.rows →
      (∀ i', r ≤ i' → i' < i → mat.cell i' lead = 0) →
      (∃ c, lead ≤ c ∧ c < mat.cols ∧ ∃ i', r ≤ i' ∧ i' < mat.rows ∧
        ((c = lead ∧ i ≤ i') ∨ lead < c) ∧ mat.cell i' c ≠ 0) →
      (mat.cols - lead) * mat.rows + (mat.rows - i) < fuel →
      ∃ i0 l0, findPivot mat r lead i fuel = .ok (i0, l0) ∧
        r ≤ i0 ∧ i0 < mat.rows ∧ lead ≤ l0 ∧ l0 < mat.cols ∧ mat.cell i0 l0 ≠ 0 ∧
        ∀ c, lead ≤ c → c < l0 → ∀ i', r ≤ i' → i' < mat.rows →
          mat.cell i' c = 0 := by
  intro fuel
  induction fuel with
  | zero =>
    intro lead i _ _ _ _ _ hm
    omega
  | succ fuel ih =>
    intro lead i hl hri hi hscan hex hfuel
    rw [findPivot, Matrix.get_ref_in hW hi hl, unwrap_some_bind]
    by_cases hv : mat.cell i lead = 0
    · rw [if_pos hv]
      by_cases hiend : i + 1 = mat.rows
      · rw [if_pos hiend]
        have hcolzero : ∀ i', r ≤ i' → i' < mat.rows → mat.cell i' lead = 0 := by
          intro i' h1 h2
          rcases Nat.lt_or_ge i' i with h | h
          · exact hscan i' h1 h
          · have : i' = i := by omega
            rw [this]; exact hv
        by_cases hlend : lead + 1 = mat.cols
        · exfalso
          obtain ⟨c, hc1, hc2, i', hi1, hi2, hcase, hnz⟩ := hex
          have hc : c = lead := by omega
          subst hc
          exact hnz (hcolzero i' hi1 hi2)
        · rw [if_neg hlend]
          have hl' : lead + 1 < mat.cols := by omega
          have hex' : ∃ c, lead + 1 ≤ c ∧ c < mat.cols ∧ ∃ i', r ≤ i' ∧
              i' < mat.rows ∧ ((c = lead + 1 ∧ r ≤ i') ∨ lead + 1 < c) ∧
              mat.cell i' c ≠ 0 := by
            obtain ⟨c, hc1, hc2, i', hi1, hi2, hcase, hnz⟩ := hex
            have hcl : lead < c := by
              rcases hcase with ⟨rfl, -⟩ | h
              · exact absurd (hcolzero i' hi1 hi2) hnz
              · exact h
            exact ⟨c, by omega, hc2, i', hi1, hi2, by omega, hnz⟩
          have hmeas : (mat.cols - (lead + 1)) * mat.rows + (mat.rows - r) < fuel := by
            have heq : (mat.cols - lead) * mat.rows =
                (mat.cols - (lead + 1)) * mat.rows + mat.rows := by
              have h1 : mat.cols - lead = (mat.cols - (lead + 1)) + 1 := by omega
              rw [h1, Nat.succ_mul]
            omega
          obtain ⟨i0, l0, heq, h1, h2, h3, h4, h5, h6⟩ :=
            ih (lead + 1) r hl' (le_refl r) hr (by omega) hex' hmeas
          refine ⟨i0, l0, heq, h1, h2, by omega, h4, h5, ?_⟩
          intro c hc1 hc2 i' hi1 hi2
          rcases Nat.lt_or_ge c (lead + 1) with h | h
          · have : c = lead := by omega
            rw [this]
            exact hcolzero i' hi1 hi2
          · exact h6 c h hc2 i' hi1 hi2
      · rw [if_neg hiend]
        have hi' : i + 1 < mat.rows := by omega
        have hscan' : ∀ i', r ≤ i' → i' < i + 1 → mat.cell i' lead = 0 := by
          intro i' h1 h2
          rcases Nat.lt_or_ge i' i with h | h
          · exact hscan i' h1 h
          · have : i' = i := by omega
            rw [this]; exact hv
        have hex' : ∃ c, lead ≤ c ∧ c < mat.cols ∧ ∃ i', r ≤ i' ∧ i' < mat.rows ∧
            ((c = lead ∧ i + 1 ≤ i') ∨ lead < c) ∧ mat.cell i' c ≠ 0 := by
          obtain ⟨c, hc1, hc2, i', hi1, hi2, hcase, hnz⟩ := hex
          rcases hcase with ⟨rfl, hii⟩ | h
          · have : i' ≠ i := fun he => hnz (he ▸ hv)
            exact ⟨c, hc1, hc2, i', hi1, hi2, Or.inl ⟨rfl, by omega⟩, hnz⟩
          · exact ⟨c, hc1, hc2, i', hi1, hi2, Or.inr h, hnz⟩
        exact ih lead (i + 1) hl hri.step hi' hscan' hex' (by omega)
    · rw [if_neg hv]
      exact ⟨i, lead, rfl, hri, hi, le_refl lead, hl, hv, fun c h1 h2 => by omega⟩

/-! ### Row swapping (inverse step c) -/

theorem swapIdx_fst (a b : ℕ) : swapIdx a b a = b := by simp [swapIdx]

theorem swapIdx_snd (a b : ℕ) : swapIdx a b b = a := by
  by_cases h : b = a <;> simp [swapIdx, h]

theorem swapIdx_other {a b x : ℕ} (hx : x ≠ a) (hx' : x ≠ b) : swapIdx a b x = x := by
  simp [swapIdx, hx, hx']

theorem swapIdx_lt {a b x n : ℕ} (ha : a < n) (hb : b < n) (hx : x < n) :
    swapIdx a b x < n := by
  unfold swapIdx
  split
  · exact hb
  split
  · exact ha
  exact hx

/-- `swap_rows` on in-range rows of a well-formed matrix succeeds and permutes
the two rows, leaving everything else unchanged. -/
theorem swap_rows_cells [Inhabited α] {m : Matrix α} (hW : m.WF) {r1 r2 : ℕ}
    (h1 : r1 < m.rows) (h2 : r2 < m.rows) :
    ∃ m', m.swap_rows r1 r2 = some m' ∧ m'.rows = m.rows ∧ m'.cols = m.cols ∧
      m'.WF ∧ ∀ r c, r < m.rows → c < m.cols →
        m'.cell r c = m.cell (swapIdx r1 r2 r) c := by
  have key : ∀ c₀, c₀ ≤ m.cols → ∃ d : List α,
      (List.range c₀).foldlM (fun d col =>
        listSwap d (col + r1 * m.cols) (col + r2 * m.cols)) m.data = some d ∧
      d.length = m.data.length ∧
      ∀ r c, r < m.rows → c < m.cols →
        d.get? (c + r * m.cols) =
          m.data.get? (c + (if c < c₀ then swapIdx r1 r2 r else r) * m.cols) := by
    intro c₀
    induction c₀ with
    | zero =>
      intro _
      exact ⟨m.data, rfl, rfl, fun r c _ _ => by simp⟩
    | succ c₀ ih =>
      intro hc₀
      obtain ⟨d, hd, hlen, hcells⟩ := ih (by omega)
      have hc₀' : c₀ < m.cols := by omega
      have ha : c₀ + r1 * m.cols < d.length := by
        rw [hlen, hW.2.2]; exact idx_lt h1 hc₀'
      have hb : c₀ + r2 * m.cols < d.length := by
        rw [hlen, hW.2.2]; exact idx_lt h2 hc₀'
      obtain ⟨x, hx⟩ : ∃ x, d.get? (c₀ + r1 * m.cols) = some x :=
        ⟨_, List.get?_eq_get ha⟩
      obtain ⟨y, hy⟩ : ∃ y, d.get? (c₀ + r2 * m.cols) = some y :=
        ⟨_, List.get?_eq_get hb⟩
      have hx' : m.data.get? (c₀ + r1 * m.cols) = some x := by
        have h := hcells r1 c₀ h1 hc₀'
        rw [if_neg (by omega)] at h
        rw [← h, hx]
      have hy' : m.data.get? (c₀ + r2 * m.cols) = some y := by
        have h := hcells r2 c₀ h2 hc₀'
        rw [if_neg (by omega)] at h
        rw [← h, hy]
      refine ⟨(d.set (c₀ + r1 * m.cols) y).set (c₀ + r2 * m.cols) x, ?_, ?_, ?_⟩
      · rw [List.range_succ, List.foldlM_append, hd]
        have hx2 : d[c₀ + r1 * m.cols]? = some x := by
          rw [← List.get?_eq_getElem?]; exact hx
        have hy2 : d[c₀ + r2 * m.cols]? = some y := by
          rw [← List.get?_eq_getElem?]; exact hy
        simp [List.foldlM, listSwap, hx, hy, hx2, hy2]
      · simp [hlen]
      · intro r c hr hc
        rw [List.get?_eq_getElem?, List.getElem?_set, List.getElem?_set]
        by_cases e2 : c₀ + r2 * m.cols = c + r * m.cols
        · obtain ⟨er, ec⟩ := rowMajor_inj hc₀' hc e2
          rw [if_pos e2, if_pos (by rw [List.length_set]; omega)]
          rw [← er, ← ec, swapIdx_snd, if_pos (by omega), ← hx']
        · rw [if_neg e2]
          by_cases e1 : c₀ + r1 * m.cols = c + r * m.cols
          · obtain ⟨er, ec⟩ := rowMajor_inj hc₀' hc e1
            rw [if_pos e1, if_pos (by omega), ← er, ← ec, swapIdx_fst,
              if_pos (by omega), ← hy']
          · rw [if_neg e1, ← List.get?_eq_getElem?, hcells r c hr hc]
            by_cases hcc : c < c₀
            · rw [if_pos hcc, if_pos (by omega)]
            · have hne1 : r ≠ r1 ∨ c ≠ c₀ := by
                by_contra hcon
                push_neg at hcon
                exact e1 (by rw [hcon.1, hcon.2])
              have hne2 : r ≠ r2 ∨ c ≠ c₀ := by
                by_contra hcon
                push_neg at hcon
                exact e2 (by rw [hcon.1, hcon.2])
              by_cases hcc1 : c = c₀
              · have hr1 : r ≠ r1 := by tauto
                have hr2 : r ≠ r2 := by tauto
                rw [if_neg (by omega), if_pos (by omega), swapIdx_other hr1 hr2]
              · rw [if_neg (by omega), if_neg (by omega)]
  obtain ⟨d, hd, hlen, hcells⟩ := key m.cols (le_refl _)
  refine ⟨⟨m.rows, m.cols, d⟩, ?_, rfl, rfl, ⟨hW.1, hW.2.1, by rw [hlen, hW.2.2]⟩, ?_⟩
  · rw [Matrix.swap_rows, hd]
    rfl
  · intro r c hr hc
    have h := hcells r c hr hc
    rw [if_pos hc] at h
    simp only [Matrix.cell]
    rw [h]

/-! ### Row normalisation and elimination (inverse steps d, e) -/

theorem ok_bind {β γ : Type} (a : β) (f : β → Except Unit γ) :
    (Except.ok a >>= f : Except Unit γ) = f a := rfl

/-- The normalisation loop divides every cell of row `r` by `d` and leaves
all other rows unchanged. -/
theorem normalizeRow_cells {mat : Matrix ℚ} (hW : mat.WF) (r : ℕ)
    (hr : r < mat.rows) (d : ℚ) :
    ∃ m', normalizeRow mat r d = .ok m' ∧ m'.rows = mat.rows ∧
      m'.cols = mat.cols ∧ m'.WF ∧
      ∀ x c, x < mat.rows → c < mat.cols →
        m'.cell x c = if x = r then mat.cell x c / d else mat.cell x c := by
  have key : ∀ j₀, j₀ ≤ mat.cols → ∃ m',
      loopNM (fun j m => do
        let v ← unwrap (m.get_mut r j)
        pure (m.set r j (v / d)).2) j₀ mat = .ok m' ∧
      m'.rows = mat.rows ∧ m'.cols = mat.cols ∧ m'.WF ∧
      ∀ x c, x < mat.rows → c < mat.cols →
        m'.cell x c = if x = r ∧ c < j₀ then mat.cell x c / d else mat.cell x c := by
    intro j₀
    induction j₀ with
    | zero =>
      intro _
      exact ⟨mat, rfl, rfl, rfl, hW, fun x c _ _ => by simp⟩
    | succ j₀ ih =>
      intro hj₀
      obtain ⟨m₁, hm₁, e1, e2, e3, e4⟩ := ih (by omega)
      rw [loopNM, hm₁, ok_bind, Matrix.get_mut_in e3 (by omega) (by omega),
        unwrap_some_bind]
      obtain ⟨f1, f2, f3, f4⟩ := Matrix.set_cells e3 r j₀
        (by omega) (by omega) (m₁.cell r j₀ / d)
      refine ⟨_, rfl, by omega, by omega, f3, ?_⟩
      intro x c hx hc
      rw [f4 x c (by omega) (by omega)]
      by_cases hxr : x = r
      · subst hxr
        by_cases hcj : c = j₀
        · subst hcj
          rw [if_pos ⟨rfl, rfl⟩, if_pos ⟨rfl, by omega⟩,
            e4 x c hx hc, if_neg (by omega)]
        · rw [if_neg (by omega), e4 x c hx hc]
          by_cases hlt : c < j₀
          · rw [if_pos ⟨rfl, hlt⟩, if_pos ⟨rfl, by omega⟩]
          · rw [if_neg (by omega), if_neg (by omega)]
      · rw [if_neg (by omega), e4 x c hx hc, if_neg (by omega), if_neg (by omega)]
  obtain ⟨m', hm', e1, e2, e3, e4⟩ := key mat.cols (le_refl _)
  refine ⟨m', hm', e1, e2, e3, ?_⟩
  intro x c hx hc
  rw [e4 x c hx hc]
  by_cases hxr : x = r
  · rw [if_pos ⟨hxr, hc⟩, if_pos hxr]
  · rw [if_neg (by omega), if_neg hxr]

/-- One elimination pass subtracts `mul = mat(k, lead)` times row `r` from
row `k` and leaves every other row unchanged. -/
theorem elimRow_cells {mat : Matrix ℚ} (hW : mat.WF) (r lead k : ℕ)
    (hr : r < mat.rows) (hk : k < mat.rows) (hkr : k ≠ r) (hl : lead < mat.cols) :
    ∃ m', elimRow mat r lead k = .ok m' ∧ m'.rows = mat.rows ∧
      m'.cols = mat.cols ∧ m'.WF ∧
      ∀ x c, x < mat.rows → c < mat.cols →
        m'.cell x c = if x = k then
          mat.cell x c - mat.cell r c * mat.cell k lead else mat.cell x c := by
  rw [elimRow, Matrix.get_in hW hk hl, unwrap_some_bind]
  have key : ∀ j₀, j₀ ≤ mat.cols → ∃ m',
      loopNM (fun j m => do
        let s ← unwrap (m.get r j)
        let v ← unwrap (m.get_mut k j)
        pure (m.set k j (v - s * mat.cell k lead)).2) j₀ mat = .ok m' ∧
      m'.rows = mat.rows ∧ m'.cols = mat.cols ∧ m'.WF ∧
      ∀ x c, x < mat.rows → c < mat.cols →
        m'.cell x c = if x = k ∧ c < j₀ then
          mat.cell x c - mat.cell r c * mat.cell k lead else mat.cell x c := by
    intro j₀
    induction j₀ with
    | zero =>
      intro _
      exact ⟨mat, rfl, rfl, rfl, hW, fun x c _ _ => by simp⟩
    | succ j₀ ih =>
      intro hj₀
      obtain ⟨m₁, hm₁, e1, e2, e3, e4⟩ := ih (by omega)
      rw [loopNM, hm₁, ok_bind, Matrix.get_in e3 (by omega) (by omega),
        unwrap_some_bind, Matrix.get_mut_in e3 (by omega) (by omega),
        unwrap_some_bind]
      obtain ⟨f1, f2, f3, f4⟩ := Matrix.set_cells e3 k j₀
        (by omega) (by omega) (m₁.cell k j₀ - m₁.cell r j₀ * mat.cell k lead)
      refine ⟨_, rfl, by omega, by omega, f3, ?_⟩
      intro x c hx hc
      rw [f4 x c (by omega) (by omega)]
      have hrow_r : m₁.cell r j₀ = mat.cell r j₀ := by
        rw [e4 r j₀ hr (by omega), if_neg (by omega)]
      have hrow_k : m₁.cell k j₀ = mat.cell k j₀ := by
        rw [e4 k j₀ hk (by omega), if_neg (by omega)]
      by_cases hxk : x = k
      · subst hxk
        by_cases hcj : c = j₀
        · subst hcj
          rw [if_pos ⟨rfl, rfl⟩, if_pos ⟨rfl, by omega⟩, hrow_r, hrow_k]
        · rw [if_neg (by omega), e4 x c hx hc]
          by_cases hlt : c < j₀
          · rw [if_pos ⟨rfl, hlt⟩, if_pos ⟨rfl, by omega⟩]
          · rw [if_neg (by omega), if_neg (by omega)]
      · rw [if_neg (by omega), e4 x c hx hc, if_neg (by omega), if_neg (by omega)]
  obtain ⟨m', hm', e1, e2, e3, e4⟩ := key mat.cols (le_refl _)
  refine ⟨m', hm', e1, e2, e3, ?_⟩
  intro x c hx hc
  rw [e4 x c hx hc]
  by_cases hxk : x = k
  · rw [if_pos ⟨hxk, hc⟩, if_pos hxk]
  · rw [if_neg (by omega), if_neg hxk]

/-- The full elimination loop: every row `x ≠ r` loses `mat(x, lead)` times
row `r`; row `r` itself is untouched. -/
theorem elimLoop_cells {mat : Matrix ℚ} (hW : mat.WF) (r lead : ℕ)
    (hr : r < mat.rows) (hl : lead < mat.cols) :
    ∃ m', elimLoop mat r lead = .ok m' ∧ m'.rows = mat.rows ∧
      m'.cols = mat.cols ∧ m'.WF ∧
      ∀ x c, x < mat.rows → c < mat.cols →
        m'.cell x c = if x = r then mat.cell x c else
          mat.cell x c - mat.cell r c * mat.cell x lead := by
  have key : ∀ k₀, k₀ ≤ mat.rows → ∃ m',
      loopNM (fun k m => if k = r then pure m else elimRow m r lead k) k₀ mat =
        .ok m' ∧
      m'.rows = mat.rows ∧ m'.cols = mat.cols ∧ m'.WF ∧
      ∀ x c, x < mat.rows → c < mat.cols →
        m'.cell x c = if x < k₀ ∧ x ≠ r then
          mat.cell x c - mat.cell r c * mat.cell x lead else mat.cell x c := by
    intro k₀
    induction k₀ with
    | zero =>
      intro _
      exact ⟨mat, rfl, rfl, rfl, hW, fun x c _ _ => by simp⟩
    | succ k₀ ih =>
      intro hk₀
      obtain ⟨m₁, hm₁, e1, e2, e3, e4⟩ := ih (by omega)
      rw [loopNM, hm₁, ok_bind]
      by_cases hkr : k₀ = r
      · rw [if_pos hkr]
        refine ⟨m₁, rfl, e1, e2, e3, ?_⟩
        intro x c hx hc
        rw [e4 x c hx hc]
        by_cases hcase : x < k₀ ∧ x ≠ r
        · rw [if_pos hcase, if_pos ⟨by omega, hcase.2⟩]
        · rw [if_neg hcase, if_neg (by omega)]
      · rw [if_neg hkr]
        obtain ⟨m₂, hm₂, f1, f2, f3, f4⟩ := elimRow_cells e3 r lead
          k₀ (by omega) (by omega) hkr (by omega)
        refine ⟨m₂, hm₂, by omega, by omega, f3, ?_⟩
        intro x c hx hc
        rw [f4 x c (by omega) (by omega)]
        have hm₁r : m₁.cell r c = mat.cell r c := by
          rw [e4 r c hr hc, if_neg (by omega)]
        have hm₁k : m₁.cell k₀ lead = mat.cell k₀ lead := by
          rw [e4 k₀ lead (by omega) hl, if_neg (by omega)]
        by_cases hxk : x = k₀
        · subst hxk
          rw [if_pos rfl, e4 x c hx hc, if_neg (by omega), hm₁r, hm₁k,
            if_pos ⟨by omega, hkr⟩]
        · rw [if_neg hxk, e4 x c hx hc]
          by_cases hcase : x < k₀ ∧ x ≠ r
          · rw [if_pos hcase, if_pos ⟨by omega, hcase.2⟩]
          · rw [if_neg hcase, if_neg (by omega)]
  obtain ⟨m', hm', e1, e2, e3, e4⟩ := key mat.rows (le_refl _)
  refine ⟨m', by rw [elimLoop]; exact hm', e1, e2, e3, ?_⟩
  intro x c hx hc
  rw [e4 x c hx hc]
  by_cases hxr : x = r
  · rw [if_neg (by omega), if_pos hxr]
  · rw [if_pos ⟨hx, hxr⟩, if_neg hxr]

/-! ### One full Gauss-Jordan iteration (inverse, matrix.rs:375-409) -/

theorem unwrap_some {β : Type} (a : β) : unwrap (some a) = Except.ok a := rfl

/-- One iteration of the main loop of `inverse`, on a state whose pivot-search
region contains a non-zero entry: no panic occurs, the pivot `(i0, l0)` is
found with every fully skipped column zero below row `r`, and the resulting
cells are described exactly by `gjStepCell`. -/
theorem gjIter_spec {mat : Matrix ℚ} (hW : mat.WF) {r lead : ℕ}
    (hr : r < mat.rows) (hl : lead < mat.cols)
    (hex : ∃ c, lead ≤ c ∧ c < mat.cols ∧ ∃ i, r ≤ i ∧ i < mat.rows ∧
      mat.cell i c ≠ 0) :
    ∃ i0 l0 matO, gjIter mat lead r = .ok (matO, l0 + 1) ∧
      r ≤ i0 ∧ i0 < mat.rows ∧ lead ≤ l0 ∧ l0 < mat.cols ∧
      mat.cell i0 l0 ≠ 0 ∧
      (∀ c, lead ≤ c → c < l0 → ∀ i, r ≤ i → i < mat.rows → mat.cell i c = 0) ∧
      matO.rows = mat.rows ∧ matO.cols = mat.cols ∧ matO.WF ∧
      ∀ x c, x < mat.rows → c < mat.cols →
        matO.cell x c = gjStepCell mat r i0 l0 x c := by
  have hex' : ∃ c, lead ≤ c ∧ c < mat.cols ∧ ∃ i', r ≤ i' ∧ i' < mat.rows ∧
      ((c = lead ∧ r ≤ i') ∨ lead < c) ∧ mat.cell i' c ≠ 0 := by
    obtain ⟨c, h1, h2, i, h3, h4, h5⟩ := hex
    rcases Nat.eq_or_lt_of_le h1 with he | he
    · exact ⟨c, h1, h2, i, h3, h4, Or.inl ⟨he.symm, h3⟩, h5⟩
    · exact ⟨c, h1, h2, i, h3, h4, Or.inr he, h5⟩
  obtain ⟨i0, l0, hfp, p1, p2, p3, p4, p5, p6⟩ :=
    findPivot_spec hW hr ((mat.cols - lead) * mat.rows + mat.rows + 1) lead r hl
      (le_refl r) hr (fun i' h1 h2 => absurd h2 (by omega)) hex' (by omega)
  obtain ⟨m₂, hswap, s1, s2, s3, s4⟩ := swap_rows_cells hW p2 hr
  have hdiv : m₂.get_ref r l0 = some (mat.cell i0 l0) := by
    rw [Matrix.get_ref_in s3 (by omega) (by omega), s4 r l0 hr p4, swapIdx_snd]
  obtain ⟨m₃, hnorm, n1, n2, n3, n4⟩ :=
    normalizeRow_cells s3 r (by omega) (mat.cell i0 l0)
  obtain ⟨m₄, helim, g1, g2, g3, g4⟩ :=
    elimLoop_cells n3 r l0 (by omega) (by omega)
  refine ⟨i0, l0, m₄, ?_, p1, p2, p3, p4, p5, p6, by omega, by omega, g3, ?_⟩
  · rw [gjIter, hfp, ok_bind]
    show (unwrap (mat.swap_rows i0 r) >>= fun mat' => _) = _
    rw [hswap, unwrap_some, ok_bind]
    show (unwrap (m₂.get_ref r l0) >>= fun d => _) = _
    rw [hdiv, unwrap_some, ok_bind]
    rw [if_neg p5, hnorm, ok_bind]
    show (elimLoop m₃ r l0 >>= fun mat' =>
      pure (mat', l0 + 1) : Except Unit (Matrix ℚ × ℕ)) = _
    rw [helim, ok_bind]
    rfl
  · intro x c hx hc
    rw [g4 x c (by omega) (by omega)]
    have hN : ∀ x' c', x' < mat.rows → c' < mat.cols →
        m₃.cell x' c' = if x' = r then
          mat.cell (swapIdx i0 r x') c' / mat.cell i0 l0
        else mat.cell (swapIdx i0 r x') c' := by
      intro x' c' hx' hc'
      rw [n4 x' c' (by omega) (by omega)]
      by_cases he : x' = r
      · rw [if_pos he, if_pos he, s4 x' c' hx' hc']
      · rw [if_neg he, if_neg he, s4 x' c' hx' hc']
    simp only [gjStepCell]
    by_cases hxr : x = r
    · subst hxr
      rw [hN x c hx hc]
      simp
    · rw [hN x c hx hc, hN r c hr hc, hN x l0 hx p4]
      simp [hxr]

/-! ### Elementary matrices and the slice-level view of a step -/

theorem swap_coe {n : ℕ} (a b x : Fin n) :
    ((Equiv.swap a b x : Fin n) : ℕ) = swapIdx (a : ℕ) (b : ℕ) (x : ℕ) := by
  rw [Equiv.swap_apply_def]
  unfold swapIdx
  by_cases h1 : x = a
  · rw [if_pos h1, if_pos (by rw [h1])]
  · rw [if_neg h1, if_neg fun hc => h1 (Fin.ext hc)]
    by_cases h2 : x = b
    · rw [if_pos h2, if_pos (by rw [h2])]
    · rw [if_neg h2, if_neg fun hc => h2 (Fin.ext hc)]

theorem permMat_mul {n : ℕ} (a b : Fin n) (M : MMat n) :
    permMat n a b * M = fun x j => M (Equiv.swap a b x) j := by
  funext x j
  show (∑ t, permMat n a b x t * M t j) = _
  unfold permMat
  rw [Finset.sum_congr rfl fun t _ => show
      (if t = Equiv.swap a b x then (1 : ℚ) else 0) * M t j =
        if t = Equiv.swap a b x then M t j else 0 from by split_ifs <;> ring]
  rw [Finset.sum_ite_eq' Finset.univ (Equiv.swap a b x) fun t => M t j]
  simp

theorem permMat_self {n : ℕ} (a b : Fin n) : permMat n a b * permMat n a b = 1 := by
  rw [permMat_mul]
  funext x j
  show permMat n a b (Equiv.swap a b x) j = (1 : MMat n) x j
  unfold permMat
  rw [Equiv.swap_apply_self, Matrix.one_apply]
  by_cases h : j = x
  · rw [if_pos h, if_pos h.symm]
  · rw [if_neg h, if_neg fun hc => h hc.symm]

theorem scaleMat_mul {n : ℕ} (r : Fin n) (c : ℚ) (M : MMat n) :
    scaleMat n r c * M = fun x j => if x = r then c * M x j else M x j := by
  funext x j
  show (∑ t, scaleMat n r c x t * M t j) = _
  unfold scaleMat
  rw [Finset.sum_congr rfl fun t _ => show
      (if x = t then (if x = r then c else 1) else 0) * M t j =
        if x = t then (if x = r then c * M t j else M t j) else 0 from by
    split_ifs <;> ring]
  rw [Finset.sum_ite_eq Finset.univ x fun t => if x = r then c * M t j else M t j]
  simp

theorem scaleMat_inv {n : ℕ} (r : Fin n) {c c' : ℚ} (h : c * c' = 1) :
    scaleMat n r c * scaleMat n r c' = 1 := by
  rw [scaleMat_mul]
  funext x j
  show (if x = r then c * scaleMat n r c' x j else scaleMat n r c' x j) =
    (1 : MMat n) x j
  unfold scaleMat
  rw [Matrix.one_apply]
  by_cases hx : x = r
  · by_cases hj : x = j
    · rw [if_pos hx, if_pos hj, if_pos hx, h, if_pos hj]
    · rw [if_pos hx, if_neg hj, mul_zero, if_neg hj]
  · by_cases hj : x = j
    · rw [if_neg hx, if_pos hj, if_neg hx, if_pos hj]
    · rw [if_neg hx, if_neg hj, if_neg hj]

theorem elimMat_mul {n : ℕ} (r : Fin n) (μ : Fin n → ℚ) (M : MMat n) :
    elimMat n r μ * M = fun x j => if x = r then M r j else M x j - μ x * M r j := by
  funext x j
  show (∑ t, elimMat n r μ x t * M t j) = _
  unfold elimMat
  by_cases hx : x = r
  · rw [Finset.sum_congr rfl fun t _ => show
        (if x = t then (1 : ℚ) else if t = r then -μ x else 0) * M t j =
          if x = t then M t j else 0 from by
      by_cases h1 : x = t
      · rw [if_pos h1, if_pos h1, one_mul]
      · rw [if_neg h1, if_neg h1]
        by_cases h2 : t = r
        · exact absurd (hx.trans h2.symm) h1
        · rw [if_neg h2, zero_mul]]
    rw [Finset.sum_ite_eq Finset.univ x fun t => M t j,
      if_pos (Finset.mem_univ x), if_pos hx, hx]
  · rw [Finset.sum_congr rfl fun t _ => show
        (if x = t then (1 : ℚ) else if t = r then -μ x else 0) * M t j =
          (if x = t then M t j else 0) + (if t = r then -μ x * M t j else 0) from by
      by_cases h1 : x = t
      · rw [if_pos h1, if_pos h1, if_neg fun hc : t = r => hx (h1.trans hc),
          one_mul, add_zero]
      · rw [if_neg h1, if_neg h1, zero_add]
        by_cases h2 : t = r
        · rw [if_pos h2, if_pos h2]
        · rw [if_neg h2, if_neg h2, zero_mul]]
    rw [Finset.sum_add_distrib,
      Finset.sum_ite_eq Finset.univ x fun t => M t j,
      Finset.sum_ite_eq' Finset.univ r fun t => -μ x * M t j,
      if_pos (Finset.mem_univ x), if_pos (Finset.mem_univ r), if_neg hx,
      neg_mul, ← sub_eq_add_neg]

theorem elimMat_inv {n : ℕ} (r : Fin n) (μ : Fin n → ℚ) :
    elimMat n r μ * elimMat n r (-μ) = 1 := by
  rw [elimMat_mul]
  funext x j
  show (if x = r then elimMat n r (-μ) r j
    else elimMat n r (-μ) x j - μ x * elimMat n r (-μ) r j) = (1 : MMat n) x j
  unfold elimMat
  rw [Matrix.one_apply]
  by_cases hx : x = r
  · rw [if_pos hx]
    by_cases hj : r = j
    · rw [if_pos hj, if_pos (hx.trans hj)]
    · rw [if_neg hj, if_neg fun hc : j = r => hj hc.symm,
        if_neg fun hc : x = j => hj (hx.symm.trans hc)]
  · rw [if_neg hx]
    by_cases hj : j = r
    · rw [if_neg fun hc : x = j => hx (hc.trans hj), if_pos hj, Pi.neg_apply,
        neg_neg, if_pos hj.symm, mul_one, sub_self,
        if_neg fun hc : x = j => hx (hc.trans hj)]
    · rw [if_neg hj, if_neg fun hc : r = j => hj hc.symm, if_neg hj, mul_zero,
        sub_zero]

theorem elimMat_inv' {n : ℕ} (r : Fin n) (μ : Fin n → ℚ) :
    elimMat n r (-μ) * elimMat n r μ = 1 := by
  have h := elimMat_inv r (-μ)
  rwa [neg_neg] at h

theorem invpair_comp {n : ℕ} {A B A' B' : MMat n} (h1 : A * A' = 1) (h1' : A' * A = 1)
    (h2 : B * B' = 1) (h2' : B' * B = 1) :
    (A * B) * (B' * A') = 1 ∧ (B' * A') * (A * B) = 1 := by
  constructor
  · rw [mul_assoc, ← mul_assoc B, h2, one_mul, h1]
  · rw [mul_assoc, ← mul_assoc A', h1', one_mul, h2']

/-- The cells produced by one Gauss-Jordan iteration, restricted to any
`n`-column slice of the augmented matrix, are exactly a left multiplication
by the three elementary matrices of the step (elimination ∘ scaling ∘ row
transposition). -/
theorem slice_step {n : ℕ} {mat matO : Matrix ℚ} {r i0 l0 : ℕ}
    (hcells : ∀ x c, x < mat.rows → c < mat.cols →
      matO.cell x c = gjStepCell mat r i0 l0 x c)
    (hrows : mat.rows = n) (hr : r < n) (hi0 : i0 < n) (_hl0 : l0 < mat.cols)
    (off : ℕ) (hoff : off + n ≤ mat.cols) :
    matO.slice n off =
      elimMat n ⟨r, hr⟩ (fun x => if (x : ℕ) = r then 0
        else mat.cell (swapIdx i0 r (x : ℕ)) l0) *
      (scaleMat n ⟨r, hr⟩ (mat.cell i0 l0)⁻¹ *
        (permMat n ⟨i0, hi0⟩ ⟨r, hr⟩ * mat.slice n off)) := by
  rw [permMat_mul, scaleMat_mul, elimMat_mul]
  funext x j
  have hx : (x : ℕ) < mat.rows := by rw [hrows]; exact x.isLt
  have hj : off + (j : ℕ) < mat.cols := by
    have := j.isLt
    omega
  show matO.cell (x : ℕ) (off + (j : ℕ)) = _
  rw [hcells _ _ hx hj]
  simp only [Matrix.slice, swap_coe, gjStepCell, Fin.ext_iff]
  by_cases hxr : (x : ℕ) = r
  · simp [hxr, swapIdx_snd, div_eq_inv_mul]
  · simp [hxr, swapIdx_snd, div_eq_inv_mul]
    ring

/-! ### The C2 loop invariant: no panic for any square input -/

/-- After one Gauss-Jordan step with pivot `(i0, l0)`, every column up to and
including `l0` is zero on all rows strictly below `r`. -/
theorem gjStep_zero_cols {mat : Matrix ℚ} {n r lead i0 l0 : ℕ}
    (hrows : mat.rows = n) (hr : r < n) (hi0 : r ≤ i0) (hi0n : i0 < n)
    (hl0 : l0 < mat.cols) (hpiv : mat.cell i0 l0 ≠ 0)
    (hskip : ∀ c, lead ≤ c → c < l0 → ∀ i, r ≤ i → i < mat.rows → mat.cell i c = 0)
    (hZC : ∀ c, c < lead → ∀ i, r ≤ i → i < n → mat.cell i c = 0)
    {x c : ℕ} (hx : r + 1 ≤ x) (hxn : x < n) (hc : c < l0 + 1) :
    gjStepCell mat r i0 l0 x c = 0 := by
  have hxr : x ≠ r := by omega
  have hσ : r ≤ swapIdx i0 r x ∧ swapIdx i0 r x < n := by
    unfold swapIdx
    by_cases h1 : x = i0
    · rw [if_pos h1]
      omega
    · rw [if_neg h1, if_neg hxr]
      omega
  simp only [gjStepCell, if_neg hxr, swapIdx_snd]
  rcases Nat.lt_or_ge c l0 with hcl | hcl
  · have hz1 : mat.cell (swapIdx i0 r x) c = 0 := by
      rcases Nat.lt_or_ge c lead with h | h
      · exact hZC c h _ hσ.1 hσ.2
      · exact hskip c h hcl _ hσ.1 (by omega)
    have hz2 : mat.cell i0 c = 0 := by
      rcases Nat.lt_or_ge c lead with h | h
      · exact hZC c h i0 hi0 hi0n
      · exact hskip c h hcl i0 hi0 (by omega)
    rw [hz1, hz2]
    simp
  · have hceq : c = l0 := by omega
    subst hceq
    simp [div_self hpiv]

/-- The main loop of `inverse` never panics as long as the right half of the
augmented matrix stays invertible and the already-passed columns are zero
below the current row — which iteration preserves. -/
theorem gjLoop_C2 {n : ℕ} :
    ∀ k r lead (mat : Matrix ℚ), r + k = n → mat.rows = n → mat.cols = n * 2 →
      mat.WF →
      (∃ R', mat.slice n n * R' = 1 ∧ R' * mat.slice n n = 1) →
      (∀ c, c < lead → ∀ i, r ≤ i → i < n → mat.cell i c = 0) →
      ∃ matF leadF, gjLoop mat lead r k = .ok (matF, leadF) ∧
        matF.rows = n ∧ matF.cols = n * 2 ∧ matF.WF := by
  intro k
  induction k with
  | zero =>
    intro r lead mat hrk h1 h2 h3 _ _
    exact ⟨mat, lead, rfl, h1, h2, h3⟩
  | succ k ih =>
    intro r lead mat hrk h1 h2 h3 hInv hZC
    have hrn : r < n := by omega
    rw [gjLoop]
    by_cases hbreak : mat.cols ≤ lead
    · rw [if_pos hbreak]
      exact ⟨mat, lead, rfl, h1, h2, h3⟩
    · rw [if_neg hbreak]
      push_neg at hbreak
      have hex : ∃ c, lead ≤ c ∧ c < mat.cols ∧ ∃ i, r ≤ i ∧ i < mat.rows ∧
          mat.cell i c ≠ 0 := by
        by_contra hno
        push_neg at hno
        obtain ⟨R', hRR', -⟩ := hInv
        have hrow0 : ∀ t : Fin n, mat.slice n n ⟨r, hrn⟩ t = 0 := by
          intro t
          show mat.cell r (n + (t : ℕ)) = 0
          have htn : n + (t : ℕ) < mat.cols := by
            have := t.isLt
            omega
          rcases Nat.lt_or_ge (n + (t : ℕ)) lead with hlt | hge
          · exact hZC _ hlt r (le_refl r) hrn
          · exact hno _ hge htn r (le_refl r) (by omega)
        have h01 := congrFun (congrFun hRR' ⟨r, hrn⟩) ⟨r, hrn⟩
        rw [Matrix.mul_apply, Matrix.one_apply_eq,
          Finset.sum_eq_zero fun t _ => by rw [hrow0 t, zero_mul]] at h01
        exact absurd h01 (by norm_num)
      obtain ⟨i0, l0, matO, hiter, q1, q2, q3, q4, q5, q6, q7, q8, q9, q10⟩ :=
        gjIter_spec h3 (by omega) hbreak hex
      rw [hiter, ok_bind]
      apply ih (r + 1) (l0 + 1) matO (by omega) (by omega) (by omega) q9
      · obtain ⟨R', hRR', hR'R⟩ := hInv
        have hslice := slice_step (n := n) q10 h1 hrn (by omega) q4 n (by omega)
        have hP := permMat_self (n := n) ⟨i0, by omega⟩ ⟨r, hrn⟩
        have hpair1 := invpair_comp hP hP hRR' hR'R
        have hD := scaleMat_inv (n := n) ⟨r, hrn⟩ (inv_mul_cancel₀ q5)
        have hD' := scaleMat_inv (n := n) ⟨r, hrn⟩ (mul_inv_cancel₀ q5)
        have hpair2 := invpair_comp hD hD' hpair1.1 hpair1.2
        have hE := elimMat_inv (n := n) ⟨r, hrn⟩
          fun x => if (x : ℕ) = r then 0 else mat.cell (swapIdx i0 r (x : ℕ)) l0
        have hE' := elimMat_inv' (n := n) ⟨r, hrn⟩
          fun x => if (x : ℕ) = r then 0 else mat.cell (swapIdx i0 r (x : ℕ)) l0
        have hpair3 := invpair_comp hE hE' hpair2.1 hpair2.2
        rw [hslice]
        exact ⟨_, hpair3.1, hpair3.2⟩
      · intro c hc i hi hin
        rw [q10 i c (by omega) (by omega)]
        exact gjStep_zero_cols h1 hrn q1 (by omega) q4 q5 q6 hZC (by omega) hin hc

/-! ### Building the augmented matrix and extracting the right half -/

/-- The nested fill loops of `inverse` (matrix.rs:362-367): starting from the
zero `len × 2·len` matrix, copy `m` into the left half and put ones on the
shifted diagonal of the right half. -/
theorem build_aug_cells {m : Matrix ℚ} (hW : m.WF) (hsq : m.rows = m.cols)
    {mat0 : Matrix ℚ} (h0r : mat0.rows = m.rows) (h0c : mat0.cols = m.rows * 2)
    (h0W : mat0.WF)
    (h0cell : ∀ i c, i < m.rows → c < m.rows * 2 → mat0.cell i c = 0) :
    ∃ aug, loopNM (fun i (mat : Matrix ℚ) => do
        let mat ← loopNM (fun j (mat : Matrix ℚ) => do
            let v ← unwrap (m.get i j)
            pure (mat.set i j v).2) m.rows mat
        pure (mat.set i (i + m.rows) 1).2) m.rows mat0 = .ok aug ∧
      aug.rows = m.rows ∧ aug.cols = m.rows * 2 ∧ aug.WF ∧
      ∀ i c, i < m.rows → c < m.rows * 2 →
        aug.cell i c = if c < m.rows then m.cell i c
          else if c = i + m.rows then 1 else 0 := by
  have hn : 0 < m.rows := hW.1
  have inner : ∀ i, i < m.rows → ∀ m₁ : Matrix ℚ, m₁.rows = m.rows →
      m₁.cols = m.rows * 2 → m₁.WF → ∀ j₀, j₀ ≤ m.rows →
      ∃ m₂, loopNM (fun j mat => do
          let v ← unwrap (m.get i j)
          pure (mat.set i j v).2) j₀ m₁ = .ok m₂ ∧
        m₂.rows = m.rows ∧ m₂.cols = m.rows * 2 ∧ m₂.WF ∧
        ∀ x c, x < m.rows → c < m.rows * 2 →
          m₂.cell x c = if x = i ∧ c < j₀ then m.cell i c else m₁.cell x c := by
    intro i hi m₁ h1 h2 h3 j₀
    induction j₀ with
    | zero =>
      intro _
      exact ⟨m₁, rfl, h1, h2, h3, fun x c _ _ => by simp⟩
    | succ j₀ ih =>
      intro hj₀
      obtain ⟨m₂, hm₂, e1, e2, e3, e4⟩ := ih (by omega)
      rw [loopNM, hm₂, ok_bind, Matrix.get_in hW hi (by omega), unwrap_some_bind]
      obtain ⟨f1, f2, f3, f4⟩ := Matrix.set_cells e3 i j₀
        (by omega) (by omega) (m.cell i j₀)
      refine ⟨_, rfl, by omega, by omega, f3, ?_⟩
      intro x c hx hc
      rw [f4 x c (by omega) (by omega)]
      by_cases hxi : x = i
      · subst hxi
        by_cases hcj : c = j₀
        · subst hcj
          rw [if_pos ⟨rfl, rfl⟩, if_pos ⟨rfl, by omega⟩]
        · rw [if_neg (by omega), e4 x c hx hc]
          by_cases hlt : c < j₀
          · rw [if_pos ⟨rfl, hlt⟩, if_pos ⟨rfl, by omega⟩]
          · rw [if_neg (by omega), if_neg (by omega)]
      · rw [if_neg (by omega), e4 x c hx hc, if_neg (by omega), if_neg (by omega)]
  have outer : ∀ i₀, i₀ ≤ m.rows → ∃ m₂, loopNM (fun i (mat : Matrix ℚ) => do
      let mat ← loopNM (fun j (mat : Matrix ℚ) => do
          let v ← unwrap (m.get i j)
          pure (mat.set i j v).2) m.rows mat
      pure (mat.set i (i + m.rows) 1).2) i₀ mat0 = .ok m₂ ∧
      m₂.rows = m.rows ∧ m₂.cols = m.rows * 2 ∧ m₂.WF ∧
      ∀ x c, x < m.rows → c < m.rows * 2 →
        m₂.cell x c = if x < i₀ then
          (if c < m.rows then m.cell x c else if c = x + m.rows then 1 else 0)
        else mat0.cell x c := by
    intro i₀
    induction i₀ with
    | zero =>
      intro _
      exact ⟨mat0, rfl, h0r, h0c, h0W, fun x c _ _ => by simp⟩
    | succ i₀ iho =>
      intro hi₀
      obtain ⟨m₂, hm₂, e1, e2, e3, e4⟩ := iho (by omega)
      rw [loopNM, hm₂, ok_bind]
      obtain ⟨m₃, hm₃, f1, f2, f3, f4⟩ := inner i₀ (by omega) m₂ e1 e2 e3
        m.rows (le_refl _)
      rw [hm₃, ok_bind]
      obtain ⟨g1, g2, g3, g4⟩ := Matrix.set_cells f3 i₀
        (i₀ + m.rows) (by omega) (by omega) (1 : ℚ)
      refine ⟨_, rfl, by omega, by omega, g3, ?_⟩
      intro x c hx hc
      rw [g4 x c (by omega) (by omega)]
      by_cases hcase : x = i₀ ∧ c = i₀ + m.rows
      · rw [if_pos hcase, if_pos (by omega), if_neg (by omega), if_pos (by omega)]
      · rw [if_neg hcase, f4 x c hx hc]
        by_cases hxi : x = i₀
        · subst hxi
          by_cases hcm : c < m.rows
          · rw [if_pos ⟨rfl, hcm⟩, if_pos (by omega), if_pos hcm]
          · rw [if_neg (by omega), e4 x c hx hc, if_neg (by omega),
              h0cell x c hx hc, if_pos (by omega), if_neg hcm, if_neg (by omega)]
        · rw [if_neg (by omega), e4 x c hx hc]
          by_cases hlt : x < i₀
          · rw [if_pos hlt, if_pos (show x < i₀ + 1 by omega)]
          · rw [if_neg hlt, if_neg (show ¬x < i₀ + 1 by omega)]
  obtain ⟨aug, haug, e1, e2, e3, e4⟩ := outer m.rows (le_refl _)
  refine ⟨aug, haug, e1, e2, e3, ?_⟩
  intro i c hi hc
  rw [e4 i c hi hc, if_pos hi]

/-- The extraction loops of `inverse` (matrix.rs:412-417): copy the right
half of the final augmented matrix into a fresh `len × len` matrix. -/
theorem extract_cells {matF : Matrix ℚ} {n : ℕ} (hFr : matF.rows = n)
    (hFc : matF.cols = n * 2) (hFW : matF.WF)
    {out0 : Matrix ℚ} (h0r : out0.rows = n) (h0c : out0.cols = n)
    (h0W : out0.WF) :
    ∃ out, loopNM (fun i (out : Matrix ℚ) => loopNM (fun j (out : Matrix ℚ) => do
        let v ← unwrap (matF.get i (j + n))
        pure (out.set i j v).2) n out) n out0 = .ok out ∧
      out.rows = n ∧ out.cols = n ∧ out.WF ∧
      ∀ i j, i < n → j < n → out.cell i j = matF.cell i (j + n) := by
  have inner : ∀ i, i < n → ∀ m₁ : Matrix ℚ, m₁.rows = n → m₁.cols = n →
      m₁.WF → ∀ j₀, j₀ ≤ n →
      ∃ m₂, loopNM (fun j out => do
          let v ← unwrap (matF.get i (j + n))
          pure (out.set i j v).2) j₀ m₁ = .ok m₂ ∧
        m₂.rows = n ∧ m₂.cols = n ∧ m₂.WF ∧
        ∀ x c, x < n → c < n →
          m₂.cell x c = if x = i ∧ c < j₀ then matF.cell i (c + n)
            else m₁.cell x c := by
    intro i hi m₁ h1 h2 h3 j₀
    induction j₀ with
    | zero =>
      intro _
      exact ⟨m₁, rfl, h1, h2, h3, fun x c _ _ => by simp⟩
    | succ j₀ ih =>
      intro hj₀
      obtain ⟨m₂, hm₂, e1, e2, e3, e4⟩ := ih (by omega)
      rw [loopNM, hm₂, ok_bind, Matrix.get_in hFW (by omega) (by omega),
        unwrap_some_bind]
      obtain ⟨f1, f2, f3, f4⟩ := Matrix.set_cells e3 i j₀
        (by omega) (by omega) (matF.cell i (j₀ + n))
      refine ⟨_, rfl, by omega, by omega, f3, ?_⟩
      intro x c hx hc
      rw [f4 x c (by omega) (by omega)]
      by_cases hxi : x = i
      · subst hxi
        by_cases hcj : c = j₀
        · subst hcj
          rw [if_pos ⟨rfl, rfl⟩, if_pos ⟨rfl, by omega⟩]
        · rw [if_neg (by omega), e4 x c hx hc]
          by_cases hlt : c < j₀
          · rw [if_pos ⟨rfl, hlt⟩, if_pos ⟨rfl, by omega⟩]
          · rw [if_neg (by omega), if_neg (by omega)]
      · rw [if_neg (by omega), e4 x c hx hc, if_neg (by omega), if_neg (by omega)]
  have outer : ∀ i₀, i₀ ≤ n → ∃ m₂, loopNM
      (fun i (out : Matrix ℚ) => loopNM (fun j (out : Matrix ℚ) => do
        let v ← unwrap (matF.get i (j + n))
        pure (out.set i j v).2) n out) i₀ out0 = .ok m₂ ∧
      m₂.rows = n ∧ m₂.cols = n ∧ m₂.WF ∧
      ∀ x c, x < n → c < n →
        m₂.cell x c = if x < i₀ then matF.cell x (c + n) else out0.cell x c := by
    intro i₀
    induction i₀ with
    | zero =>
      intro _
      exact ⟨out0, rfl, h0r, h0c, h0W, fun x c _ _ => by simp⟩
    | succ i₀ iha =>
      intro hi₀
      obtain ⟨m₂, hm₂, e1, e2, e3, e4⟩ := iha (by omega)
      rw [loopNM, hm₂, ok_bind]
      obtain ⟨m₃, hm₃, f1, f2, f3, f4⟩ := inner i₀ (by omega) m₂ e1 e2 e3 n (le_refl _)
      rw [hm₃]
      refine ⟨m₃, rfl, f1, f2, f3, ?_⟩
      intro x c hx hc
      rw [f4 x c hx hc]
      by_cases hxi : x = i₀
      · subst hxi
        rw [if_pos ⟨rfl, hc⟩, if_pos (by omega)]
      · rw [if_neg (by omega), e4 x c hx hc]
        by_cases hlt : x < i₀
        · rw [if_pos hlt, if_pos (by omega)]
        · rw [if_neg hlt, if_neg (by omega)]
  obtain ⟨out, hout, e1, e2, e3, e4⟩ := outer n (le_refl _)
  refine ⟨out, hout, e1, e2, e3, ?_⟩
  intro i j hi hj
  rw [e4 i j hi hj, if_pos hi]

/-! ### The complete run of inverse on a square well-formed matrix -/

theorem aug_slice_id {aug m : Matrix ℚ} (_hr : aug.rows = m.rows)
    (hcell : ∀ i c, i < m.rows → c < m.rows * 2 →
      aug.cell i c = if c < m.rows then m.cell i c
        else if c = i + m.rows then 1 else 0) :
    aug.slice m.rows m.rows = 1 := by
  funext i j
  show aug.cell (i : ℕ) (m.rows + (j : ℕ)) = (1 : MMat m.rows) i j
  rw [hcell _ _ i.isLt (by have := j.isLt; omega),
    if_neg (by omega), Matrix.one_apply]
  by_cases h : (i : ℕ) = (j : ℕ)
  · rw [if_pos (by omega), if_pos (Fin.ext h)]
  · rw [if_neg (by omega), if_neg fun hc => h (congrArg Fin.val hc)]

/-- A full run of `inverse` on a well-formed square matrix over `ℚ`: the
augmented matrix is built, the elimination loop finishes without panicking,
and the right half is extracted — so `inverse` returns `Some`. -/
theorem inverse_some {m : Matrix ℚ} (hW : m.WF) (hsq : m.rows = m.cols) :
    ∃ aug matF leadF out,
      m.inverse = .ok (some out) ∧
      aug.rows = m.rows ∧ aug.cols = m.rows * 2 ∧ aug.WF ∧
      (∀ i c, i < m.rows → c < m.rows * 2 →
        aug.cell i c = if c < m.rows then m.cell i c
          else if c = i + m.rows then 1 else 0) ∧
      gjLoop aug 0 0 m.rows = .ok (matF, leadF) ∧
      matF.rows = m.rows ∧ matF.cols = m.rows * 2 ∧ matF.WF ∧
      out.rows = m.rows ∧ out.cols = m.rows ∧ out.WF ∧
      (∀ i j, i < m.rows → j < m.rows → out.cell i j = matF.cell i (j + m.rows)) := by
  have hn : 0 < m.rows := hW.1
  obtain ⟨z0, hz0, hz0W, hz0r, hz0c, hz0cell⟩ :=
    zero_eq (α := ℚ) hn (show 0 < m.rows * 2 by omega)
  obtain ⟨aug, haug, a1, a2, a3, a4⟩ := build_aug_cells hW hsq hz0r hz0c hz0W hz0cell
  have hslice1 : aug.slice m.rows m.rows = 1 := aug_slice_id a1 a4
  obtain ⟨matF, leadF, hloop, f1, f2, f3⟩ :=
    gjLoop_C2 (n := m.rows) m.rows 0 0 aug (by omega) a1 a2 a3
      ⟨1, by rw [hslice1, one_mul], by rw [hslice1, mul_one]⟩
      (fun c hc => absurd hc (by omega))
  obtain ⟨w0, hw0, hw0W, hw0r, hw0c, hw0cell⟩ := zero_eq (α := ℚ) hn hn
  obtain ⟨out, hout, o1, o2, o3, o4⟩ := extract_cells f1 f2 f3 hw0r hw0c hw0W
  refine ⟨aug, matF, leadF, out, ?_, a1, a2, a3, a4, hloop, f1, f2, f3,
    o1, o2, o3, o4⟩
  rw [Matrix.inverse, if_neg fun h => h hsq]
  show (unwrap (Matrix.zero m.rows (m.rows * 2)) >>= fun mat0 => _) = _
  rw [hz0, unwrap_some, ok_bind]
  show (loopNM _ m.rows z0 >>= fun mat => _ : Except Unit (Option (Matrix ℚ))) = _
  rw [haug, ok_bind]
  show (gjLoop aug 0 0 aug.rows >>= fun s => _ : Except Unit (Option (Matrix ℚ))) = _
  rw [a1, hloop, ok_bind]
  show (unwrap (Matrix.zero m.rows m.rows) >>= fun out0 => _) = _
  rw [hw0, unwrap_some, ok_bind]
  show (loopNM _ m.rows w0 >>= fun out => _ : Except Unit (Option (Matrix ℚ))) = _
  rw [hout, ok_bind]
  rfl

/-! ### Claim C2 -/

/-- C2: `inverse` returns `None` exactly on non-square input (immediately,
reading nothing from the matrix), and on every well-formed square matrix —
including singular ones — it runs to completion and returns `Some`: no
execution path panics and no singularity is ever signalled. -/
theorem C2_inverse_totality :
    ∀ m : Matrix ℚ,
      (m.rows ≠ m.cols → m.inverse = .ok none) ∧
      (m.WF → m.rows = m.cols → ∃ inv, m.inverse = .ok (some inv)) := by
  intro m
  constructor
  · intro h
    rw [Matrix.inverse, if_pos h]
    rfl
  · intro hW hsq
    obtain ⟨aug, matF, leadF, out, heq, -⟩ := inverse_some hW hsq
    exact ⟨out, heq⟩

/-- Witness for C2: a non-square matrix returns `None`; a singular square
matrix (the 2×2 zero matrix) still returns `Some`. -/
theorem C2_inverse_totality_witness :
    (Matrix.mk 1 2 [1, 2] : Matrix ℚ).inverse = .ok none ∧
    ∃ inv, (Matrix.mk 2 2 [0, 0, 0, 0] : Matrix ℚ).inverse = .ok (some inv) :=
  ⟨(C2_inverse_totality ⟨1, 2, [1, 2]⟩).1 (by decide),
    (C2_inverse_totality ⟨2, 2, [0, 0, 0, 0]⟩).2 (by decide) rfl⟩

/-! ### The C1 loop invariant: full Gauss-Jordan correctness over ℚ -/

theorem slice_zero_apply (mat : Matrix ℚ) {n : ℕ} (i j : Fin n) :
    mat.slice n 0 i j = mat.cell (i : ℕ) (j : ℕ) := by
  show mat.cell (i : ℕ) (0 + (j : ℕ)) = _
  rw [Nat.zero_add]

/-- Closed form of `gjStepCell`. -/
theorem gjStepCell_eq (mat : Matrix ℚ) (r i0 l0 x c : ℕ) :
    gjStepCell mat r i0 l0 x c =
      if x = r then mat.cell i0 c / mat.cell i0 l0
      else mat.cell (swapIdx i0 r x) c -
        (mat.cell i0 c / mat.cell i0 l0) * mat.cell (swapIdx i0 r x) l0 := by
  by_cases hxr : x = r
  · subst hxr
    simp [gjStepCell, swapIdx_snd]
  · simp [gjStepCell, hxr, swapIdx_snd]

/-- When all columns left of `r` are identity columns and the pivot is found
in column `r` itself, one Gauss-Jordan step turns column `r` into the `r`-th
identity column and keeps the previous ones. -/
theorem gjStep_id {mat : Matrix ℚ} {n r i0 : ℕ}
    (hr : r < n) (hi0 : r ≤ i0) (hi0n : i0 < n)
    (hpiv : mat.cell i0 r ≠ 0)
    (hId : ∀ i j, i < n → j < r → mat.cell i j = if i = j then 1 else 0)
    {x c : ℕ} (hx : x < n) (hc : c < r + 1) :
    gjStepCell mat r i0 r x c = if x = c then 1 else 0 := by
  rw [gjStepCell_eq]
  by_cases hxr : x = r
  · rw [if_pos hxr]
    rcases Nat.lt_or_ge c r with hcr | hcr
    · rw [hId i0 c hi0n hcr, if_neg (show ¬ i0 = c by omega), zero_div,
        if_neg (by omega)]
    · have hceq : c = r := by omega
      subst hceq
      rw [div_self hpiv, if_pos (by omega)]
  · rw [if_neg hxr]
    rcases Nat.lt_or_ge c r with hcr | hcr
    · rw [hId i0 c hi0n hcr, if_neg (show ¬ i0 = c by omega), zero_div,
        zero_mul, sub_zero]
      by_cases hxi : x = i0
      · subst hxi
        rw [show swapIdx x r x = r from by rw [swapIdx, if_pos rfl],
          hId r c hr hcr, if_neg (show ¬ r = c by omega),
          if_neg (show ¬ x = c by omega)]
      · rw [swapIdx_other hxi hxr, hId x c hx hcr]
    · have hceq : c = r := by omega
      subst hceq
      rw [div_self hpiv, one_mul, sub_self, if_neg (by omega)]

/-- The C1 loop invariant: with an invertible input matrix `A`, at entry to
iteration `r` the cursor equals `r`, the first `r` columns of the left half
are identity columns, the left half is (right half)·A, and the right half is
invertible.  The loop then finishes with the whole left half equal to the
identity. -/
theorem gjLoop_C1 {n : ℕ} (A : MMat n) (hA : ∃ B, A * B = 1 ∧ B * A = 1) :
    ∀ k r (mat : Matrix ℚ), r + k = n → mat.rows = n → mat.cols = n * 2 →
      mat.WF →
      (∃ R', mat.slice n n * R' = 1 ∧ R' * mat.slice n n = 1) →
      mat.slice n 0 = mat.slice n n * A →
      (∀ i j : Fin n, (j : ℕ) < r → mat.slice n 0 i j = if i = j then 1 else 0) →
      ∃ matF leadF, gjLoop mat r r k = .ok (matF, leadF) ∧
        matF.rows = n ∧ matF.cols = n * 2 ∧ matF.WF ∧
        matF.slice n 0 = matF.slice n n * A ∧
        (∀ i j : Fin n, matF.slice n 0 i j = if i = j then 1 else 0) := by
  intro k
  induction k with
  | zero =>
    intro r mat hrk h1 h2 h3 _ hrel hId
    exact ⟨mat, r, rfl, h1, h2, h3, hrel,
      fun i j => hId i j (by have := j.isLt; omega)⟩
  | succ k ih =>
    intro r mat hrk h1 h2 h3 hR hrel hId
    have hrn : r < n := by omega
    rw [gjLoop, if_neg (show ¬ mat.cols ≤ r by omega)]
    obtain ⟨R', hRR', hR'R⟩ := hR
    obtain ⟨B, hAB, hBA⟩ := hA
    have hLpair := invpair_comp hRR' hR'R hAB hBA
    rw [← hrel] at hLpair
    have hId_nat : ∀ i j, i < n → j < r → mat.cell i j = if i = j then 1 else 0 := by
      intro i j hi hj
      have h := hId ⟨i, hi⟩ ⟨j, by omega⟩ hj
      rw [slice_zero_apply] at h
      rw [h]
      by_cases hij : i = j
      · rw [if_pos (Fin.ext hij), if_pos hij]
      · rw [if_neg fun hc => hij (congrArg Fin.val hc), if_neg hij]
    have hexcol : ∃ i, r ≤ i ∧ i < n ∧ mat.cell i r ≠ 0 := by
      by_contra hno
      push_neg at hno
      have hLx : (mat.slice n 0).mulVec (fun k =>
          if (k : ℕ) = r then 1 else
          if (k : ℕ) < r then -(mat.slice n 0 k ⟨r, hrn⟩) else 0) = 0 := by
        funext i
        show (∑ t, mat.slice n 0 i t *
          (if (t : ℕ) = r then 1 else
            if (t : ℕ) < r then -(mat.slice n 0 t ⟨r, hrn⟩) else 0)) = 0
        by_cases hir : (i : ℕ) < r
        · rw [Finset.sum_congr rfl fun t _ => show mat.slice n 0 i t *
              (if (t : ℕ) = r then 1 else
                if (t : ℕ) < r then -(mat.slice n 0 t ⟨r, hrn⟩) else 0) =
              (if t = ⟨r, hrn⟩ then mat.slice n 0 i ⟨r, hrn⟩ else 0) +
              (if t = i then -(mat.slice n 0 i ⟨r, hrn⟩) else 0) from by
            by_cases h1 : (t : ℕ) = r
            · have ht : t = ⟨r, hrn⟩ := Fin.ext h1
              rw [if_pos h1, if_pos ht, mul_one, ht,
                if_neg (show ¬(⟨r, hrn⟩ : Fin n) = i from
                  fun hc => by rw [← hc] at hir; simp at hir), add_zero]
            · rw [if_neg h1, if_neg fun hc : t = ⟨r, hrn⟩ => h1 (by rw [hc]),
                zero_add]
              by_cases h2 : (t : ℕ) < r
              · rw [if_pos h2, slice_zero_apply, slice_zero_apply,
                  hId_nat _ _ i.isLt h2]
                by_cases h3 : t = i
                · rw [if_pos h3, if_pos (by rw [h3]), one_mul, h3,
                    slice_zero_apply]
                · rw [if_neg h3,
                    if_neg fun hc : (i : ℕ) = (t : ℕ) => h3 (Fin.ext hc.symm),
                    zero_mul]
              · rw [if_neg h2, mul_zero,
                  if_neg fun hc : t = i => h2 (by rw [hc]; exact hir)]]
          rw [Finset.sum_add_distrib,
            Finset.sum_ite_eq' Finset.univ (⟨r, hrn⟩ : Fin n)
              (fun _ => mat.slice n 0 i ⟨r, hrn⟩),
            Finset.sum_ite_eq' Finset.univ i
              (fun _ => -(mat.slice n 0 i ⟨r, hrn⟩))]
          simp
        · rw [Finset.sum_congr rfl fun t _ => show mat.slice n 0 i t *
              (if (t : ℕ) = r then 1 else
                if (t : ℕ) < r then -(mat.slice n 0 t ⟨r, hrn⟩) else 0) =
              (if t = ⟨r, hrn⟩ then mat.slice n 0 i ⟨r, hrn⟩ else 0) from by
            by_cases h1 : (t : ℕ) = r
            · have ht : t = ⟨r, hrn⟩ := Fin.ext h1
              rw [if_pos h1, if_pos ht, mul_one, ht]
            · rw [if_neg h1, if_neg fun hc : t = ⟨r, hrn⟩ => h1 (by rw [hc])]
              by_cases h2 : (t : ℕ) < r
              · rw [if_pos h2, slice_zero_apply, slice_zero_apply,
                  hId_nat _ _ i.isLt h2,
                  if_neg (show ¬(i : ℕ) = (t : ℕ) by omega), zero_mul]
              · rw [if_neg h2, mul_zero]]
          rw [Finset.sum_ite_eq' Finset.univ (⟨r, hrn⟩ : Fin n)
            (fun _ => mat.slice n 0 i ⟨r, hrn⟩), if_pos (Finset.mem_univ _),
            slice_zero_apply]
          exact hno _ (by omega) i.isLt
      have hx0 : (fun k : Fin n =>
          if (k : ℕ) = r then (1 : ℚ) else
          if (k : ℕ) < r then -(mat.slice n 0 k ⟨r, hrn⟩) else 0) = 0 := by
        have h1' : (fun k : Fin n =>
            if (k : ℕ) = r then (1 : ℚ) else
            if (k : ℕ) < r then -(mat.slice n 0 k ⟨r, hrn⟩) else 0) =
            (B * R' * mat.slice n 0).mulVec (fun k =>
              if (k : ℕ) = r then 1 else
              if (k : ℕ) < r then -(mat.slice n 0 k ⟨r, hrn⟩) else 0) := by
          rw [hLpair.2, Matrix.one_mulVec]
        rw [← Matrix.mulVec_mulVec, hLx, Matrix.mulVec_zero] at h1'
        exact h1'
      have := congrFun hx0 ⟨r, hrn⟩
      simp at this
    obtain ⟨iw, hiw1, hiw2, hiwnz⟩ := hexcol
    have hex : ∃ c, r ≤ c ∧ c < mat.cols ∧ ∃ i, r ≤ i ∧ i < mat.rows ∧
        mat.cell i c ≠ 0 :=
      ⟨r, le_refl r, by omega, iw, hiw1, by omega, hiwnz⟩
    obtain ⟨i0, l0, matO, hiter, q1, q2, q3, q4, q5, q6, q7, q8, q9, q10⟩ :=
      gjIter_spec h3 (by omega) (by omega) hex
    have hi0n : i0 < n := by omega
    have hl0r : r = l0 := by
      by_contra hne
      exact hiwnz (q6 r (le_refl r) (by omega) iw hiw1 (by omega))
    subst hl0r
    rw [hiter, ok_bind]
    apply ih (r + 1) matO (by omega) (by omega) (by omega) q9
    · have hslice := slice_step (n := n) q10 h1 hrn hi0n q4 n (by omega)
      have hP := permMat_self (n := n) ⟨i0, hi0n⟩ ⟨r, hrn⟩
      have hpair1 := invpair_comp hP hP hRR' hR'R
      have hD := scaleMat_inv (n := n) ⟨r, hrn⟩ (inv_mul_cancel₀ q5)
      have hD' := scaleMat_inv (n := n) ⟨r, hrn⟩ (mul_inv_cancel₀ q5)
      have hpair2 := invpair_comp hD hD' hpair1.1 hpair1.2
      have hE := elimMat_inv (n := n) ⟨r, hrn⟩
        fun x => if (x : ℕ) = r then 0 else mat.cell (swapIdx i0 r (x : ℕ)) r
      have hE' := elimMat_inv' (n := n) ⟨r, hrn⟩
        fun x => if (x : ℕ) = r then 0 else mat.cell (swapIdx i0 r (x : ℕ)) r
      have hpair3 := invpair_comp hE hE' hpair2.1 hpair2.2
      rw [hslice]
      exact ⟨_, hpair3.1, hpair3.2⟩
    · have hs0 := slice_step (n := n) q10 h1 hrn hi0n q4 0 (by omega)
      have hsN := slice_step (n := n) q10 h1 hrn hi0n q4 n (by omega)
      rw [hs0, hsN, hrel,
        ← mul_assoc (permMat n ⟨i0, hi0n⟩ ⟨r, hrn⟩) (mat.slice n n) A,
        ← mul_assoc (scaleMat n ⟨r, hrn⟩ (mat.cell i0 r)⁻¹)
          (permMat n ⟨i0, hi0n⟩ ⟨r, hrn⟩ * mat.slice n n) A,
        ← mul_assoc (elimMat n ⟨r, hrn⟩
            fun x => if (x : ℕ) = r then 0 else mat.cell (swapIdx i0 r (x : ℕ)) r)
          (scaleMat n ⟨r, hrn⟩ (mat.cell i0 r)⁻¹ *
            (permMat n ⟨i0, hi0n⟩ ⟨r, hrn⟩ * mat.slice n n)) A]
    · intro i j hj
      rw [slice_zero_apply, q10 _ _ (by omega) (by omega)]
      have h := gjStep_id hrn q1 hi0n q5 hId_nat (x := (i : ℕ)) (c := (j : ℕ))
        i.isLt hj
      rw [h]
      by_cases hij : (i : ℕ) = (j : ℕ)
      · rw [if_pos hij, if_pos (Fin.ext hij)]
      · rw [if_neg hij, if_neg fun hc => hij (congrArg Fin.val hc)]

/-! ### Claim C1 -/

/-- C1 counterexample: over `ℤ` — an exact-arithmetic element type explicitly
admitted by the claim — the matrix `[[2,1],[1,1]]` is invertible (both
products with `[[1,-1],[-1,2]]` give the identity matrix that `identity 2`
itself returns), yet `inverse` returns `[[0,0],[0,1]]` and the product with
it is `[[0,1],[0,1]]`, not the identity: the pivot normalisation `v / d`
truncates under integer division. -/
theorem C1_counterexample :
    (Matrix.mk 2 2 [2, 1, 1, 1] : Matrix ℤ).mul ⟨2, 2, [1, -1, -1, 2]⟩ =
        some ⟨2, 2, [1, 0, 0, 1]⟩ ∧
    (Matrix.mk 2 2 [1, -1, -1, 2] : Matrix ℤ).mul ⟨2, 2, [2, 1, 1, 1]⟩ =
        some ⟨2, 2, [1, 0, 0, 1]⟩ ∧
    (Matrix.identity 2 : Option (Matrix ℤ)) = some ⟨2, 2, [1, 0, 0, 1]⟩ ∧
    (Matrix.mk 2 2 [2, 1, 1, 1] : Matrix ℤ).inverse =
        .ok (some ⟨2, 2, [0, 0, 0, 1]⟩) ∧
    (Matrix.mk 2 2 [2, 1, 1, 1] : Matrix ℤ).mul ⟨2, 2, [0, 0, 0, 1]⟩ =
        some ⟨2, 2, [0, 1, 0, 1]⟩ ∧
    (Matrix.mk 2 2 [0, 1, 0, 1] : Matrix ℤ) ≠ ⟨2, 2, [1, 0, 0, 1]⟩ := by
  decide

unseal Rat.add Rat.mul Rat.inv Rat.sub Nat.gcd in
/-- C1 (amended to field arithmetic; `C1_counterexample` refutes the claim for
the integers): over `ℚ`, for every well-formed square matrix whose underlying
mathematical matrix is invertible, `inverse` returns `Some inv` and
`m.mul inv` is exactly the `identity` matrix of size `m.rows`; and on the
concrete 4×4 matrix of the spec, `inverse` returns exactly
`[[-3/2,0,1/2,0],[0,-2,0,1],[5/4,0,-1/4,0],[0,7/4,0,-3/4]]` (the rational
values the spec states to 0.01 tolerance). -/
theorem C1_inverse_correct :
    (∀ m : Matrix ℚ, m.WF → m.rows = m.cols →
      (∃ B, m.slice m.rows 0 * B = 1 ∧ B * m.slice m.rows 0 = 1) →
      ∃ inv idm, m.inverse = .ok (some inv) ∧
        Matrix.identity m.rows = some idm ∧ m.mul inv = some idm) ∧
    (Matrix.mk 4 4 [1, 0, 2, 0, 0, 3, 0, 4, 5, 0, 6, 0, 0, 7, 0, 8] :
        Matrix ℚ).inverse =
      .ok (some ⟨4, 4, [-(3/2), 0, 1/2, 0, 0, -2, 0, 1,
        5/4, 0, -(1/4), 0, 0, 7/4, 0, -(3/4)]⟩) := by
  constructor
  · intro m hW hsq hA
    have hn : 0 < m.rows := hW.1
    obtain ⟨aug, matF, leadF, out, heq, a1, a2, a3, a4, hloop, f1, f2, f3,
      o1, o2, o3, o4⟩ := inverse_some hW hsq
    have hslice1 : aug.slice m.rows m.rows = 1 := aug_slice_id a1 a4
    have hslice0 : aug.slice m.rows 0 = m.slice m.rows 0 := by
      funext i j
      rw [slice_zero_apply, slice_zero_apply,
        a4 _ _ i.isLt (by have := j.isLt; omega), if_pos j.isLt]
    obtain ⟨matF', leadF', hloop', g1, g2, g3, grel, gId⟩ :=
      gjLoop_C1 (n := m.rows) (m.slice m.rows 0) hA m.rows 0 aug
        (by omega) a1 a2 a3
        ⟨1, by rw [hslice1, one_mul], by rw [hslice1, one_mul]⟩
        (by rw [hslice1, one_mul, hslice0])
        (fun i j hj => absurd hj (by omega))
    have hdet : (matF', leadF') = (matF, leadF) :=
      Except.ok.inj (hloop'.symm.trans hloop)
    have hmF : matF' = matF := congrArg Prod.fst hdet
    rw [hmF] at grel gId
    have hL1 : matF.slice m.rows 0 = 1 := by
      funext i j
      rw [gId i j, Matrix.one_apply]
    have hRA : matF.slice m.rows m.rows * m.slice m.rows 0 = 1 := by
      rw [← grel, hL1]
    obtain ⟨B, hAB, hBA⟩ := hA
    have hRB : matF.slice m.rows m.rows = B := by
      have h1 : matF.slice m.rows m.rows * (m.slice m.rows 0 * B) =
          matF.slice m.rows m.rows := by rw [hAB, mul_one]
      rw [← mul_assoc, hRA, one_mul] at h1
      exact h1.symm
    have hout_slice : out.slice m.rows 0 = matF.slice m.rows m.rows := by
      funext i j
      rw [slice_zero_apply, o4 _ _ i.isLt j.isLt]
      show _ = matF.cell (i : ℕ) (m.rows + (j : ℕ))
      rw [Nat.add_comm]
    have hARout : m.slice m.rows 0 * out.slice m.rows 0 = 1 := by
      rw [hout_slice, hRB, hAB]
    obtain ⟨idm, hidm, hidmW, hidmr, hidmc, hidmcell⟩ := identity_eq (α := ℚ) hn
    refine ⟨out, idm, heq, hidm, ?_⟩
    rw [mul_cells hW o3 (by rw [o1]; exact hsq.symm)]
    congr 1
    apply Matrix.ext_cells
    · exact ⟨hn, by rw [o2]; exact hn, length_buildData _ _ _⟩
    · exact hidmW
    · exact hidmr.symm
    · rw [o2, hidmc]
    intro r c hr hc
    have hc' : c < m.rows := o2 ▸ hc
    rw [cell_mk_buildData _ hr hc, hidmcell r c hr hc']
    rw [← hsq, ← Fin.sum_univ_eq_sum_range]
    have h := congrFun (congrFun hARout (⟨r, hr⟩ : Fin m.rows))
      (⟨c, hc'⟩ : Fin m.rows)
    rw [Matrix.mul_apply, Matrix.one_apply] at h
    refine Eq.trans ?_ (Eq.trans h ?_)
    · exact Finset.sum_congr rfl fun k _ => by
        rw [slice_zero_apply, slice_zero_apply]
    · by_cases hrc : r = c
      · rw [if_pos (show (⟨r, hr⟩ : Fin m.rows) = ⟨c, hc'⟩ from Fin.ext hrc),
          if_pos hrc]
      · rw [if_neg (fun hx : (⟨r, hr⟩ : Fin m.rows) = ⟨c, hc'⟩ =>
          hrc (congrArg Fin.val hx)), if_neg hrc]
  · decide

unseal Rat.add Rat.mul Rat.inv Rat.sub Nat.gcd in
/-- Witness for the amended C1 at the concrete matrix `[[1,1],[0,1]]`, whose
mathematical inverse `[[1,-1],[0,1]]` discharges the invertibility
hypothesis. -/
theorem C1_inverse_correct_witness :
    ∃ inv idm,
      (Matrix.mk 2 2 [1, 1, 0, 1] : Matrix ℚ).inverse = .ok (some inv) ∧
      (Matrix.identity 2 : Option (Matrix ℚ)) = some idm ∧
      (Matrix.mk 2 2 [1, 1, 0, 1] : Matrix ℚ).mul inv = some idm :=
  C1_inverse_correct.1 ⟨2, 2, [1, 1, 0, 1]⟩ (by decide) rfl
    ⟨Matrix.of ![![1, -1], ![0, 1]], by decide, by decide⟩

/-! ### Claim C10 -/

theorem listSwap_length {l l' : List α} {a b : ℕ} (h : listSwap l a b = some l') :
    l'.length = l.length := by
  rw [listSwap] at h
  cases hx : l.get? a with
  | none => rw [hx] at h; exact Option.noConfusion h
  | some x =>
    cases hy : l.get? b with
    | none => rw [hx, hy] at h; exact Option.noConfusion h
    | some y =>
      rw [hx, hy] at h
      rw [← Option.some.inj h, List.length_set, List.length_set]

theorem foldlM_listSwap_length {f g : ℕ → ℕ} :
    ∀ (cs : List ℕ) (d d' : List α),
      cs.foldlM (fun d i => listSwap d (f i) (g i)) d = some d' →
      d'.length = d.length := by
  intro cs
  induction cs with
  | nil =>
    intro d d' h
    rw [← Option.some.inj h]
  | cons c cs ih =>
    intro d d' h
    rw [List.foldlM_cons] at h
    cases hs : listSwap d (f c) (g c) with
    | none => rw [hs] at h; exact Option.noConfusion h
    | some e =>
      rw [hs] at h
      rw [ih e d' h, listSwap_length hs]

/-- C10: the structural invariant `data.length = rows * cols` with positive
`rows` and `cols` holds for the output of every constructor (`from_iter`,
`new`, the unbounded-source `from_iter`, `zero`, `identity`, `transpose`,
`inverse`, the arithmetic operators), and every mutating operation (`set`,
`swap_rows`, `swap_cols`, `apply_mut`, the assign forms, negation) keeps
`rows`, `cols`, and the backing-store length of an existing matrix
unchanged. -/
theorem C10_invariant_preservation :
    (∀ rows cols (d : List ℚ) m, Matrix.from_iter rows cols d = some m →
      m.WF ∧ m.rows = rows ∧ m.cols = cols) ∧
    (∀ R C (vals : List (List ℚ)) m, Matrix.new R C vals = some m →
      m.WF ∧ m.rows = R ∧ m.cols = C) ∧
    (∀ rows cols (f : ℕ → ℚ) m, Matrix.from_fun rows cols f = some m →
      m.WF ∧ m.rows = rows ∧ m.cols = cols) ∧
    (∀ rows cols (m : Matrix ℚ), Matrix.zero rows cols = some m →
      m.WF ∧ m.rows = rows ∧ m.cols = cols) ∧
    (∀ size (m : Matrix ℚ), Matrix.identity size = some m →
      m.WF ∧ m.rows = size ∧ m.cols = size) ∧
    (∀ m mt : Matrix ℚ, m.WF → m.transpose = some mt →
      mt.WF ∧ mt.rows = m.cols ∧ mt.cols = m.rows) ∧
    (∀ m inv : Matrix ℚ, m.WF → m.inverse = .ok (some inv) →
      inv.WF ∧ inv.rows = m.rows ∧ inv.cols = m.rows) ∧
    (∀ m₁ m₂ m₃ : Matrix ℚ, m₁.WF → m₂.WF →
      (m₁.add m₂ = some m₃ ∨ m₁.addRef m₂ = some m₃ ∨
       m₁.sub m₂ = some m₃ ∨ m₁.subRef m₂ = some m₃ ∨
       m₁.add_assign m₂ = some m₃ ∨ m₁.sub_assign m₂ = some m₃) →
      m₃.WF ∧ m₃.rows = m₁.rows ∧ m₃.cols = m₁.cols ∧
        m₃.data.length = m₁.data.length) ∧
    (∀ m₁ m₂ m₃ : Matrix ℚ, m₁.WF → m₂.WF → m₁.mul m₂ = some m₃ →
      m₃.WF ∧ m₃.rows = m₁.rows ∧ m₃.cols = m₂.cols) ∧
    (∀ (m : Matrix ℚ) (f : ℚ → ℚ), m.WF →
      (m.apply_mut f).WF ∧ (m.apply_mut f).rows = m.rows ∧
      (m.apply_mut f).cols = m.cols ∧
      (m.apply_mut f).data.length = m.data.length ∧
      m.neg.WF ∧ m.neg.rows = m.rows ∧ m.neg.cols = m.cols ∧
      m.neg.data.length = m.data.length) ∧
    (∀ (m : Matrix ℚ) r c v, m.WF →
      (m.set r c v).2.WF ∧ (m.set r c v).2.rows = m.rows ∧
      (m.set r c v).2.cols = m.cols ∧
      (m.set r c v).2.data.length = m.data.length) ∧
    (∀ (m mo : Matrix ℚ) i j, m.WF →
      (m.swap_rows i j = some mo ∨ m.swap_cols i j = some mo) →
      mo.WF ∧ mo.rows = m.rows ∧ mo.cols = m.cols ∧
        mo.data.length = m.data.length) := by
  have hfi : ∀ rows cols (d : List ℚ) m, Matrix.from_iter rows cols d = some m →
      m.WF ∧ m.rows = rows ∧ m.cols = cols := by
    intro rows cols d m h
    simp only [Matrix.from_iter] at h
    by_cases h1 : 0 < rows ∧ 0 < cols
    · rw [if_pos h1] at h
      by_cases h2 : (d.take (rows * cols)).length = rows * cols
      · rw [if_pos h2] at h
        rw [← Option.some.inj h]
        exact ⟨⟨h1.1, h1.2, h2⟩, rfl, rfl⟩
      · rw [if_neg h2] at h
        exact Option.noConfusion h
    · rw [if_neg h1] at h
      exact Option.noConfusion h
  have hff : ∀ rows cols (f : ℕ → ℚ) m, Matrix.from_fun rows cols f = some m →
      m.WF ∧ m.rows = rows ∧ m.cols = cols := by
    intro rows cols f m h
    simp only [Matrix.from_fun] at h
    by_cases h1 : 0 < rows ∧ 0 < cols
    · rw [if_pos h1] at h
      rw [← Option.some.inj h]
      exact ⟨⟨h1.1, h1.2, by simp⟩, rfl, rfl⟩
    · rw [if_neg h1] at h
      exact Option.noConfusion h
  have hswap : ∀ (m mo : Matrix ℚ) i j, m.WF →
      (m.swap_rows i j = some mo ∨ m.swap_cols i j = some mo) →
      mo.WF ∧ mo.rows = m.rows ∧ mo.cols = m.cols ∧
        mo.data.length = m.data.length := by
    intro m mo i j hW hor
    have key : ∀ (f g : ℕ → ℕ) (R : ℕ),
        ((List.range R).foldlM (fun d col => listSwap d (f col) (g col))
          m.data).map (fun d => (Matrix.mk m.rows m.cols d : Matrix ℚ)) =
          some mo →
        mo.WF ∧ mo.rows = m.rows ∧ mo.cols = m.cols ∧
          mo.data.length = m.data.length := by
      intro f g R h
      cases hd : (List.range R).foldlM
          (fun d col => listSwap d (f col) (g col)) m.data with
      | none => rw [hd] at h; exact Option.noConfusion h
      | some d =>
        rw [hd] at h
        have hlen := foldlM_listSwap_length (List.range R) m.data d hd
        rw [← Option.some.inj h]
        exact ⟨⟨hW.1, hW.2.1, by rw [hlen]; exact hW.2.2⟩, rfl, rfl, hlen⟩
    rcases hor with h | h
    · exact key _ _ _ h
    · exact key _ _ _ h
  have helem : ∀ m₁ m₂ m₃ : Matrix ℚ, m₁.WF → m₂.WF →
      (m₁.add m₂ = some m₃ ∨ m₁.addRef m₂ = some m₃ ∨
       m₁.sub m₂ = some m₃ ∨ m₁.subRef m₂ = some m₃ ∨
       m₁.add_assign m₂ = some m₃ ∨ m₁.sub_assign m₂ = some m₃) →
      m₃.WF ∧ m₃.rows = m₁.rows ∧ m₃.cols = m₁.cols ∧
        m₃.data.length = m₁.data.length := by
    intro m₁ m₂ m₃ h1 h2 hor
    have key : ∀ d : List ℚ,
        (if m₁.rows = m₂.rows ∧ m₁.cols = m₂.cols then
          some (Matrix.mk m₁.rows m₁.cols d : Matrix ℚ) else none) = some m₃ →
        (m₁.rows = m₂.rows → m₁.cols = m₂.cols →
          d.length = m₁.rows * m₁.cols) →
        m₃.WF ∧ m₃.rows = m₁.rows ∧ m₃.cols = m₁.cols ∧
          m₃.data.length = m₁.data.length := by
      intro d h hd
      by_cases hc : m₁.rows = m₂.rows ∧ m₁.cols = m₂.cols
      · rw [if_pos hc] at h
        have hd' := hd hc.1 hc.2
        rw [← Option.some.inj h]
        exact ⟨⟨h1.1, h1.2.1, hd'⟩, rfl, rfl, by rw [hd', h1.2.2]⟩
      · rw [if_neg hc] at h
        exact Option.noConfusion h
    have hzip : ∀ f : ℚ → ℚ → ℚ, m₁.rows = m₂.rows → m₁.cols = m₂.cols →
        (List.zipWith f m₁.data m₂.data).length = m₁.rows * m₁.cols := by
      intro f e1 e2
      rw [List.length_zipWith, h1.2.2, h2.2.2, ← e1, ← e2, Nat.min_self]
    have hassign : ∀ f : ℚ → ℚ → ℚ, m₁.rows = m₂.rows → m₁.cols = m₂.cols →
        (List.zipWith f m₁.data m₂.data ++
          m₁.data.drop m₂.data.length).length = m₁.rows * m₁.cols := by
      intro f e1 e2
      rw [List.length_append, List.length_zipWith, List.length_drop,
        h1.2.2, h2.2.2, ← e1, ← e2]
      omega
    rcases hor with h | h | h | h | h | h
    · exact key _ h (hzip _)
    · exact key _ h (hzip _)
    · exact key _ h (hzip _)
    · exact key _ h (hzip _)
    · exact key _ h (hassign _)
    · exact key _ h (hassign _)
  refine ⟨hfi, fun R C vals m h => hfi _ _ _ _ h, hff,
    fun rows cols m h => hff _ _ _ _ h, ?_, ?_, ?_, helem, ?_, ?_, ?_, hswap⟩
  · intro size m h
    by_cases hs : 0 < size
    · obtain ⟨I, hI, hIW, hIr, hIc, -⟩ := identity_eq (α := ℚ) hs
      rw [hI] at h
      rw [← Option.some.inj h]
      exact ⟨hIW, hIr, hIc⟩
    · have hz : size = 0 := by omega
      subst hz
      simp [Matrix.identity, Matrix.zero, Matrix.from_fun] at h
  · intro m mt hW ht
    obtain ⟨w1, w2, w3, -⟩ := transpose_WF hW ht
    exact ⟨w1, w2, w3⟩
  · intro m inv hW hinv
    by_cases hsq : m.rows = m.cols
    · obtain ⟨aug, matF, leadF, out, heq, -, -, -, -, -, -, -, -,
        o1, o2, o3, -⟩ := inverse_some hW hsq
      rw [heq] at hinv
      rw [← Option.some.inj (Except.ok.inj hinv)]
      exact ⟨o3, o1, o2⟩
    · rw [Matrix.inverse, if_pos hsq] at hinv
      exact Option.noConfusion (Except.ok.inj hinv)
  · intro m₁ m₂ m₃ h1 h2 h
    by_cases hc : m₁.cols = m₂.rows
    · rw [mul_cells h1 h2 hc] at h
      rw [← Option.some.inj h]
      exact ⟨⟨h1.1, h2.2.1, length_buildData _ _ _⟩, rfl, rfl⟩
    · rw [Matrix.mul, if_neg hc] at h
      exact Option.noConfusion h
  · intro m f hW
    exact ⟨⟨hW.1, hW.2.1, by rw [Matrix.apply_mut, List.length_map]; exact hW.2.2⟩,
      rfl, rfl, by rw [Matrix.apply_mut, List.length_map],
      ⟨hW.1, hW.2.1, by rw [Matrix.neg, List.length_map]; exact hW.2.2⟩,
      rfl, rfl, by rw [Matrix.neg, List.length_map]⟩
  · intro m r c v hW
    by_cases hrc : r < m.rows ∧ c < m.cols
    · rw [Matrix.set_in hW hrc.1 hrc.2]
      exact ⟨⟨hW.1, hW.2.1, by rw [List.length_set]; exact hW.2.2⟩, rfl, rfl,
        by rw [List.length_set]⟩
    · rw [Matrix.set_oob hrc]
      exact ⟨hW, rfl, rfl, rfl⟩

unseal Rat.add Rat.mul Rat.inv Rat.sub Nat.gcd in
/-- Witness for C10 at concrete inputs: a 2×3 `from_iter`, the inverse of
`[[2,0],[0,2]]`, an in-range `set`, and a row swap. -/
theorem C10_invariant_preservation_witness :
    ((Matrix.mk 2 3 [1, 2, 3, 4, 5, 6] : Matrix ℚ).WF ∧
      (Matrix.mk 2 3 [1, 2, 3, 4, 5, 6] : Matrix ℚ).rows = 2 ∧
      (Matrix.mk 2 3 [1, 2, 3, 4, 5, 6] : Matrix ℚ).cols = 3) ∧
    ((Matrix.mk 2 2 [1/2, 0, 0, 1/2] : Matrix ℚ).WF ∧
      (Matrix.mk 2 2 [1/2, 0, 0, 1/2] : Matrix ℚ).rows = 2 ∧
      (Matrix.mk 2 2 [1/2, 0, 0, 1/2] : Matrix ℚ).cols = 2) ∧
    (((Matrix.mk 2 2 [1, 2, 3, 4] : Matrix ℚ).set 0 1 9).2.WF ∧
      ((Matrix.mk 2 2 [1, 2, 3, 4] : Matrix ℚ).set 0 1 9).2.rows = 2 ∧
      ((Matrix.mk 2 2 [1, 2, 3, 4] : Matrix ℚ).set 0 1 9).2.cols = 2 ∧
      ((Matrix.mk 2 2 [1, 2, 3, 4] : Matrix ℚ).set 0 1 9).2.data.length = 4) ∧
    ((Matrix.mk 2 2 [3, 4, 1, 2] : Matrix ℚ).WF ∧
      (Matrix.mk 2 2 [3, 4, 1, 2] : Matrix ℚ).rows = 2 ∧
      (Matrix.mk 2 2 [3, 4, 1, 2] : Matrix ℚ).cols = 2 ∧
      (Matrix.mk 2 2 [3, 4, 1, 2] : Matrix ℚ).data.length = 4) :=
  ⟨C10_invariant_preservation.1 2 3 [1, 2, 3, 4, 5, 6]
      ⟨2, 3, [1, 2, 3, 4, 5, 6]⟩ rfl,
    C10_invariant_preservation.2.2.2.2.2.2.1 ⟨2, 2, [2, 0, 0, 2]⟩
      ⟨2, 2, [1/2, 0, 0, 1/2]⟩ (by decide) (by decide),
    C10_invariant_preservation.2.2.2.2.2.2.2.2.2.2.1 ⟨2, 2, [1, 2, 3, 4]⟩ 0 1 9
      (by decide),
    C10_invariant_preservation.2.2.2.2.2.2.2.2.2.2.2 ⟨2, 2, [1, 2, 3, 4]⟩
      ⟨2, 2, [3, 4, 1, 2]⟩ 0 1 (by decide) (Or.inl (by decide))⟩

end SimpleMatrix
